import Mathlib

/-!
Verification development for the fleax incremental static-site build pipeline
(`bin/fleax.mjs`, first variant in the repository, together with the island
runtime `src/island.ts`).

The JavaScript code is shallowly embedded:

* JavaScript objects and `Map`s (which preserve insertion order and have
  unique keys) are modelled as association lists `List (String × α)` with
  lookup `jget` (first match) and insert-or-update `jset` (update in place,
  append new keys at the end) — exactly the observable behaviour of
  `obj[k] = v` / `map.set(k, v)` and `obj[k]` / `map.get(k)`.
* `null`/`undefined`-able values are `Option`s; a JS property lookup that can
  yield `undefined` is an `Option` of the property type.
* The filesystem is split into a read-only source store `srcFs` (the project
  tree the build reads) and an output store `outFs` (the `dist/` tree it
  writes), both association lists from path to file content.  `existsSync`
  is key membership, `readFileSync` is lookup, `rmSync` removes the key.
* External collaborators (the md5 digest from `node:crypto`, the esbuild
  compiler, lightningcss, the Closure compiler, module resolution) are
  bundled into an explicit record of function parameters `Ext`; every theorem
  quantifies over them, so nothing depends on their internals.
* Asynchronous control flow is sequentialised (the orchestrator awaits every
  stage), and the watch-mode trigger logic is modelled as a transition system
  over the `building`/`queued`/timer flags.
-/

namespace Fleax

/-! ## JavaScript object / Map model -/

/-- Lookup in a JS object / `Map`: first entry with the key (keys are unique
in objects built by assignment, so "first" is "the" entry). `none` models
`undefined`. -/
def jget {α : Type} : List (String × α) → String → Option α
  | [], _ => none
  | (k, v) :: rest, key => if k = key then some v else jget rest key

/-- `obj[k] = v` / `map.set(k, v)`: update in place if the key is present,
otherwise append at the end (JS insertion-order semantics). -/
def jset {α : Type} : List (String × α) → String → α → List (String × α)
  | [], k, v => [(k, v)]
  | (k', v') :: rest, k, v =>
    if k' = k then (k', v) :: rest else (k', v') :: jset rest k v

/-- `Object.keys` / `Map.keys`, in insertion order. -/
def keysOf {α : Type} (m : List (String × α)) : List String := m.map Prod.fst

/-- `Set.add`: JS `Set` insertion (no-op when the element is present,
append otherwise). -/
def jsAdd (s : List String) (x : String) : List String :=
  if x ∈ s then s else s ++ [x]

/-- `[...new Set(l)]`: deduplicate keeping first occurrences. -/
def jsDedup (l : List String) : List String := l.foldl jsAdd []

/-! ## Dependency snapshots (`computeDepHashes`, `depHashesEqual`)

A `Snapshot` is the JS object mapping absolute file path to md5 content hash,
`null` (`Option.none` inside the value) when the file was unreadable. -/

/-- A dependency snapshot: JS object from path to hash-or-null. -/
abbrev Snapshot := List (String × Option String)

/-- `depHashesEqual(a, b)` from `bin/fleax.mjs`: entry counts must match and
every entry of `a` must be found in `b` with an identical value
(`b[filePath] !== hashValue` fails both for a differing hash and for an
absent key, since `undefined` differs from every hash and from `null`). -/
def depHashesEqual (a b : Snapshot) : Bool :=
  a.length = b.length && a.all fun e => jget b e.1 = some e.2

/-! ## String primitive models

Character-list implementations of the string primitives the embedding needs
(`startsWith`, `split`, `trim`, `replace`, `toLowerCase`), recursive on
structural fuel so that every definition evaluates inside the kernel. -/

def listStartsWith : List Char → List Char → Bool
  | [], _ => true
  | _ :: _, [] => false
  | a :: as, b :: bs => a = b && listStartsWith as bs

/-- `hay.includes(needle)` on character lists. -/
def listHasInfix (needle : List Char) : List Char → Bool
  | [] => listStartsWith needle []
  | c :: rest => listStartsWith needle (c :: rest) || listHasInfix needle rest

/-- `s.startsWith(pre)`. -/
def strStartsWith (s pre : String) : Bool := listStartsWith pre.data s.data

/-- Split on a non-empty separator; each step consumes at least one
character, so input-length fuel suffices. -/
def strSplitOnFuel (sep : List Char) : Nat → List Char → List Char → List (List Char)
  | 0, rest, acc => [acc ++ rest]
  | _ + 1, [], acc => [acc]
  | fuel + 1, c :: rest, acc =>
    if listStartsWith sep (c :: rest) then
      acc :: strSplitOnFuel sep fuel (List.drop (sep.length - 1) rest) []
    else strSplitOnFuel sep fuel rest (acc ++ [c])

/-- `s.split(sep)` (for the non-empty separators the build uses). -/
def strSplitOn (s sep : String) : List String :=
  if sep = "" then [s]
  else (strSplitOnFuel sep.data (s.data.length + 1) s.data []).map String.mk

/-- `s.trim()`. -/
def strTrim (s : String) : String :=
  String.mk (((s.data.dropWhile Char.isWhitespace).reverse.dropWhile Char.isWhitespace).reverse)

/-- Replace every (leftmost, non-overlapping) occurrence of a non-empty
pattern. -/
def strReplaceFuel (pat rep : List Char) : Nat → List Char → List Char
  | 0, rest => rest
  | _ + 1, [] => []
  | fuel + 1, c :: rest =>
    if listStartsWith pat (c :: rest) then
      rep ++ strReplaceFuel pat rep fuel (List.drop (pat.length - 1) rest)
    else c :: strReplaceFuel pat rep fuel rest

/-- `s.replaceAll(pat, rep)` for non-empty patterns. -/
def strReplace (s pat rep : String) : String :=
  if pat = "" then s
  else String.mk (strReplaceFuel pat.data rep.data (s.data.length + 1) s.data)

/-- `s.toLowerCase()` (ASCII). -/
def strToLower (s : String) : String := String.mk (s.data.map Char.toLower)

/-! ## Filesystem model

`srcFs` (project tree, read-only during a build) and `outFs` (the `dist/`
output tree) are maps from full path to file content.  Following
`bin/fleax.mjs`, `node:path.join` is modelled as `/`-concatenation (the
paths the build joins never contain `.`/`..` segments). -/

abbrev FS := List (String × String)

/-- `existsSync` (for files tracked in the store). -/
def fsExists (fs : FS) (p : String) : Bool := (jget fs p).isSome

/-- `writeFileSync`. -/
def fsWrite (fs : FS) (p c : String) : FS := jset fs p c

/-- `rmSync`. -/
def fsRemove (fs : FS) (p : String) : FS := fs.filter fun e => ¬e.1 = p

/-- `hashFile(path)`: md5 of the file content, `null` when the file does not
exist / is unreadable (the try/catch and `statSync` checks collapse to
definedness of the lookup). -/
def hashFile (md5 : String → String) (fs : FS) (p : String) : Option String :=
  (jget fs p).map md5

/-- `join(a, b)` for the slash-free segments the build uses. -/
def joinP (a b : String) : String := a ++ "/" ++ b

/-- `urlPath.replace(/^\//, "")`: strip one leading slash. -/
def dropOneSlash (u : String) : String := if strStartsWith u "/" then u.drop 1 else u

/-- Disk location of an output URL: `join(outDir, urlPath.replace(/^\//, ""))`. -/
def urlDiskPath (outDir u : String) : String := joinP outDir (dropOneSlash u)

/-- JS falsiness of an optional string (`undefined`, `null` or `""`). -/
def optFalsy (u : Option String) : Bool :=
  match u with
  | none => true
  | some s => s = ""

/-- `outputExistsForUrl(outDir, urlPath)`: `false` for a falsy URL, else
existence of the corresponding disk path. -/
def outputExistsForUrl (outFs : FS) (outDir : String) (u : Option String) : Bool :=
  match u with
  | none => false
  | some url => if url = "" then false else fsExists outFs (urlDiskPath outDir url)

/-- `removeOutputForUrl(outDir, urlPath)`, threading the output store and the
list of performed deletions (the build's observable `rmSync` calls). -/
def removeOutputForUrl (outFs : FS) (dels : List String) (outDir : String)
    (u : Option String) : FS × List String :=
  match u with
  | none => (outFs, dels)
  | some url =>
    if url = "" then (outFs, dels)
    else
      let d := urlDiskPath outDir url
      if fsExists outFs d then (fsRemove outFs d, dels ++ [d]) else (outFs, dels)

/-- `basename(p)`. -/
def lastSegment (p : String) : String := (strSplitOn p "/").getLastD p

/-- `extname(name)` (approximate: dotfiles such as `.hidden` are treated as
having an extension; the build never feeds it one). -/
def extOf (name : String) : String :=
  let parts := strSplitOn name "."
  if parts.length ≤ 1 then "" else "." ++ parts.getLastD ""

/-- `basename(p, extname(p))`. -/
def basenameNoExt (p : String) : String :=
  let nm := lastSegment p
  let e := extOf nm
  if e = "" then nm else nm.dropRight e.length

/-- `getPageRoute`. -/
def getPageRoute (pagePath : String) : String := basenameNoExt pagePath

/-- `getPageHtmlOutPath`. -/
def getPageHtmlOutPath (outDir pagePath : String) : String :=
  let route := getPageRoute pagePath
  if route = "index" then joinP outDir "index.html"
  else joinP (joinP outDir route) "index.html"

/-! ## CSS purge (`optimizeCss` keep-set expansion) -/

/-- The per-token test in `optimizeCss`'s expansion loop:
`symbol === token || symbol.startsWith(token + "-") || token.startsWith(symbol + "-")`. -/
def classMatchesToken (symbol token : String) : Bool :=
  symbol = token || strStartsWith symbol (token ++ "-") || strStartsWith token (symbol ++ "-")

/-- The `expandedKeep` set of `optimizeCss`: starts as a copy of the keep set
and gains every CSS symbol matching some keep token (the inner loop `break`s
after the first matching token, i.e. tests `any`). -/
def expandedKeepSet (allSymbols keep : List String) : List String :=
  allSymbols.foldl
    (fun acc symbol => if keep.any (classMatchesToken symbol) then jsAdd acc symbol else acc)
    keep

/-- `unusedSymbols = [...allSymbols].filter(s => !expandedKeep.has(s))`:
what `optimizeCss` hands to the minifier as eligible for removal. -/
def unusedSymbolsFor (allSymbols keep : List String) : List String :=
  allSymbols.filter fun s => ¬s ∈ expandedKeepSet allSymbols keep

/-! ## Cache store (`loadCache`) -/

/-- Persisted island record. -/
structure IslandRecord where
  srcPath : String
  depHashes : Option Snapshot
  jsPath : Option String
  cssPath : Option String
deriving DecidableEq, Repr

/-- Persisted page record. -/
structure PageRecord where
  depHashes : Option Snapshot
  islandSources : List String
  htmlPath : Option String
  cssPath : Option String
deriving DecidableEq, Repr

/-- In-memory cache (`loadCache` result / `saveCache` argument). -/
structure Cache where
  version : Nat
  mode : String
  purge : Bool
  classKeepHash : String
  pages : List (String × PageRecord)
  islands : List (String × IslandRecord)
deriving DecidableEq, Repr

/-- The current run's profile handed to `loadCache`. -/
structure Profile where
  purge : Bool
  classKeepHash : String
deriving DecidableEq, Repr

/-- What `JSON.parse` of the persisted manifest can yield: every field may be
missing (`Option.none`). -/
structure RawCache where
  version : Option Nat
  mode : Option String
  purge : Option Bool
  classKeepHash : Option String
  pages : Option (List (String × PageRecord))
  islands : Option (List (String × IslandRecord))
deriving DecidableEq, Repr

/-- State of the persisted cache file: absent, unreadable/unparseable (the
try/catch around `readFileSync` + `JSON.parse`), or parsed. -/
inductive CacheFileState
  | absent
  | unreadable
  | parsed (raw : RawCache)
deriving DecidableEq, Repr

def CACHE_VERSION : Nat := 1

def modeString (isProd : Bool) : String :=
  if isProd then "production" else "development"

/-- The fresh empty cache tagged with the current profile. -/
def freshCache (isProd : Bool) (profile : Profile) : Cache :=
  ⟨CACHE_VERSION, modeString isProd, profile.purge, profile.classKeepHash, [], []⟩

/-- `loadCache(profile)` from `bin/fleax.mjs`: total by construction (the
source wraps read+parse in try/catch and never throws). -/
def loadCache (isProd : Bool) (st : CacheFileState) (profile : Profile) : Cache :=
  match st with
  | .absent => freshCache isProd profile
  | .unreadable => freshCache isProd profile
  | .parsed raw =>
    if raw.version ≠ some CACHE_VERSION ∨ raw.mode ≠ some (modeString isProd) ∨
        raw.purge ≠ some profile.purge ∨
        raw.classKeepHash ≠ some profile.classKeepHash then
      freshCache isProd profile
    else
      ⟨CACHE_VERSION, modeString isProd, profile.purge, profile.classKeepHash,
        raw.pages.getD [], raw.islands.getD []⟩

/-! ## HTML escaping and document assembly (`escapeHTML`, `wrapDocument`) -/

/-- Decimal digit character (codes 48–57). -/
def decDigit : Nat → Char
  | 0 => Char.ofNat 48
  | 1 => Char.ofNat 49
  | 2 => Char.ofNat 50
  | 3 => Char.ofNat 51
  | 4 => Char.ofNat 52
  | 5 => Char.ofNat 53
  | 6 => Char.ofNat 54
  | 7 => Char.ofNat 55
  | 8 => Char.ofNat 56
  | _ => Char.ofNat 57

/-- Decimal printing with structural fuel (`fuel ≥ 1 + log10 n` suffices;
callers pass `n + 1`). -/
def natDecimalGo : Nat → Nat → List Char → List Char
  | 0, _, acc => acc
  | fuel + 1, n, acc =>
    if n < 10 then decDigit n :: acc
    else natDecimalGo fuel (n / 10) (decDigit (n % 10) :: acc)

/-- The decimal representation of a number, as JS template interpolation
(`${c.charCodeAt(0)}`) prints it. -/
def natDecimal (n : Nat) : String := String.mk (natDecimalGo (n + 1) n [])

/-- One step of `String(s).replace(/[&<>"']/g, c => "&#" + c.charCodeAt(0) + ";")`.
The character codes are 38 `&`, 60 `<`, 62 `>`, 34 `"`, 39 apostrophe. -/
def escapeChar (c : Char) : String :=
  if c.toNat = 38 ∨ c.toNat = 60 ∨ c.toNat = 62 ∨ c.toNat = 34 ∨ c.toNat = 39 then
    "&#" ++ natDecimal c.toNat ++ ";"
  else String.singleton c

/-- `escapeHTML`. -/
def escapeHTML (s : String) : String := String.join (s.data.map escapeChar)

/-- `meta.themeColor` as JS sees it: absent, a string, or an object with
optional string fields. -/
inductive ThemeColorV
  | absent
  | str (s : String)
  | obj (light : Option String) (dark : Option String)
deriving DecidableEq, Repr

/-- A page's `meta` export.  `head` is the (opaque) head virtual node,
rendered via the external `renderToString`. -/
structure Meta where
  title : Option String
  lang : Option String
  themeColor : ThemeColorV
  head : Option String
deriving DecidableEq, Repr

/-- The inline theme bootstrap script emitted by `wrapDocument`. -/
def themeBootstrap : String :=
  "<script>(()=>\x7bconst a=v=>\x7bconst t=v===\"dark\"?\"dark\":\"light\";document.documentElement.style.colorScheme=t\x7d;try\x7ba(localStorage.getItem(\"theme\"))\x7dcatch\x7ba(null)\x7d;addEventListener(\"storage\",e=>\x7bif(e.key===\"theme\")a(e.newValue)\x7d)\x7d)();</script>"

/-- `typeof themeColor === "string" ? themeColor : typeof themeColor?.light === "string" ? themeColor.light : "#ffffff"`. -/
def themeColorLightOf : ThemeColorV → String
  | .str s => s
  | .obj (some l) _ => l
  | _ => "#ffffff"

def themeColorDarkOf : ThemeColorV → String
  | .str s => s
  | .obj _ (some d) => d
  | _ => "#000000"

/-- `wrapDocument(body, meta, scripts, cssLinks)`; `renderHead` stands for the
external `renderToString` applied to the head node. -/
def wrapDocument (renderHead : String → String) (body : String) (meta : Meta)
    (scripts cssLinks : String) : String :=
  let lang := meta.lang.getD "en"
  let headHtml := match meta.head with
    | some h => renderHead h
    | none => ""
  let safeLang := escapeHTML lang
  let safeTitle := match meta.title with
    | some t => if t = "" then "" else "<title>" ++ escapeHTML t ++ "</title>"
    | none => ""
  let tcLight := themeColorLightOf meta.themeColor
  let tcDark := themeColorDarkOf meta.themeColor
  let themeColorMeta :=
    "<meta name=\"theme-color\" media=\"(prefers-color-scheme: light)\" content=\"" ++
      escapeHTML tcLight ++
      "\"><meta name=\"theme-color\" media=\"(prefers-color-scheme: dark)\" content=\"" ++
      escapeHTML tcDark ++ "\">"
  "<!DOCTYPE html><html lang=\"" ++ safeLang ++
    "\"><head><meta charset=\"utf-8\"><meta name=\"viewport\" content=\"width=device-width\"><meta name=\"color-scheme\" content=\"dark light\">" ++
    themeColorMeta ++ themeBootstrap ++ safeTitle ++ cssLinks ++ headHtml ++
    "</head><body>" ++ body ++ scripts ++ "</body></html>"

/-! ## Island runtime (`src/island.ts`) -/

/-- 32-bit `Math.imul` on the build's inputs (values below 2^32). -/
def imul32 (a b : Nat) : Nat := a * b % 4294967296

/-- One step of the FNV-1a loop in `hashString`. -/
def hashStringStep (h : Nat) (c : Char) : Nat := imul32 (Nat.xor h c.toNat) 16777619

/-- `hashString` from `src/island.ts` (the `>>> 0` normalisation is a no-op
on the Nat-mod-2^32 model). -/
def hashString (value : String) : Nat := value.data.foldl hashStringStep 2166136261

/-- `n.toString(16)`. -/
def toHex (n : Nat) : String := String.mk (Nat.toDigits 16 n)

/-- `.padStart(8, "0")`. -/
def padStart8 (s : String) : String :=
  if 8 ≤ s.length then s
  else String.mk (List.replicate (8 - s.length) (Char.ofNat 48)) ++ s

/-- `getIslandClassName`. -/
def getIslandClassName (src : String) : String := "__" ++ padStart8 (toHex (hashString src))

/-- Registry entry recorded per island source. -/
structure IslandEntry where
  originalSrc : String
  resolvedPath : String
deriving DecidableEq, Repr

/-- The registry mutation performed by one `<Island src=...>` render
(`islandRegistry.set(src, { originalSrc: src, resolvedPath: src })`). -/
def islandRegister (registry : List (String × IslandEntry)) (src : String) :
    List (String × IslandEntry) :=
  jset registry src ⟨src, src⟩

/-- Registry contents after a sequence of `<Island>` renders starting from a
fresh (`resetIslands`) registry. -/
def registryAfter (calls : List String) : List (String × IslandEntry) :=
  calls.foldl islandRegister []

/-! ## External collaborators

Everything the pipeline delegates (md5 from `node:crypto`, esbuild, its
metafile, lightningcss, the Closure compiler, `require.resolve`, the regex
class extractors, the HTML renderer) enters as explicit functions; every
theorem below quantifies over them. -/

/-- A CSS file collected by the esbuild plugin (`{path, content}`). -/
structure CssEntry where
  path : String
  content : String
deriving DecidableEq, Repr

/-- What compiling an island with esbuild yields: the bundle text, the
metafile input paths, and the CSS collector contents. -/
structure IslandCompileOut where
  jsContent : String
  inputs : List String
  cssPaths : List String
  cssEntries : List CssEntry
deriving DecidableEq, Repr

/-- What compiling and executing a page module yields: whether it has a
default export, the rendered HTML (`renderToString(component)`), the `meta`
export, the island registry after the render (`getIslands()`), the metafile
input paths and the CSS collector contents. -/
structure PageCompileOut where
  hasDefault : Bool
  html : String
  meta : Meta
  islands : List (String × IslandEntry)
  inputs : List String
  cssPaths : List String
  cssEntries : List CssEntry
deriving DecidableEq, Repr

/-- The bundle of external collaborators. -/
structure Ext where
  isProd : Bool
  md5 : String → String
  resolveIslandSrc : String → String
  resolveInput : String → String
  compileIsland : String → IslandCompileOut
  compilePage : String → PageCompileOut
  extractClasses : String → List String
  extractSymbols : String → List String
  lcss : String → String → Bool → Option (List String) → String
  lcssMinify : String → String
  closure : String → Option String
  renderHead : String → String

/-- `hash(s)`: first 8 hex chars of the md5 digest. -/
def hash8 (E : Ext) (s : String) : String := (E.md5 s).take 8

/-! ## CSS composition and optimisation -/

/-- `isFleaxUiComponentCssPath`. -/
def isFleaxUiComponentCssPath (filePath : String) : Bool :=
  let normalized := strReplace filePath "\\" "/"
  listHasInfix "/@fleax/ui/dist/components/".data normalized.data ||
    listHasInfix "/packages/fleax-ui/dist/components/".data normalized.data

/-- `/^\s*@layer\b/i`. -/
def cssStartsWithLayerRule (css : String) : Bool :=
  match css.data.dropWhile Char.isWhitespace with
  | c1 :: c2 :: c3 :: c4 :: c5 :: c6 :: rest =>
    (strToLower (String.mk [c1, c2, c3, c4, c5, c6]) = "@layer" : Bool) &&
      (match rest with
       | [] => true
       | c :: _ => !(c.isAlphanum || c.toNat = 95))
  | _ => false

/-- One entry of `composeCollectedCss`'s loop; the state is the chunk list
plus whether the `@layer components` block is currently open. -/
def composeStep (st : List String × Bool) (entry : CssEntry) : List String × Bool :=
  let content := strTrim entry.content
  if content = "" then st
  else
    let shouldWrap := isFleaxUiComponentCssPath entry.path && !cssStartsWithLayerRule content
    if shouldWrap then
      if st.2 then (st.1 ++ [content], true)
      else (st.1 ++ ["@layer components \x7b", content], true)
    else
      let chunks := if st.2 then st.1 ++ ["\x7d"] else st.1
      (chunks ++ [content], false)

/-- `composeCollectedCss(entries)`. -/
def composeCollectedCss (entries : List CssEntry) : String :=
  if entries = [] then ""
  else
    let st := entries.foldl composeStep ([], false)
    let chunks := if st.2 then st.1 ++ ["\x7d"] else st.1
    if 0 < chunks.length then String.intercalate "\n\n" chunks ++ "\n" else ""

/-- `minifyCss`. -/
def minifyCss (E : Ext) (css : String) : String :=
  if ¬E.isProd then css else E.lcssMinify css

/-- `optimizeCss(css, {purge, usedClasses, classKeep, filename})`: compute the
unused-symbol list if purging, then delegate to the lightningcss transform
(minify in production). -/
def optimizeCss (E : Ext) (css : String) (purge : Bool)
    (usedClasses classKeep : List String) (filename : String) : String :=
  if ¬purge ∧ ¬E.isProd then css
  else
    let unused :=
      if purge then
        some (unusedSymbolsFor (E.extractSymbols css) (jsDedup (usedClasses ++ classKeep)))
      else none
    E.lcss css filename E.isProd unused

/-- `JSON.stringify` of a string (control-character escaping elided: the
keep-list entries are plain class names). -/
def jsonString (s : String) : String :=
  "\"" ++ strReplace (strReplace s "\\" "\\\\") "\"" "\\\"" ++ "\""

/-- `JSON.stringify` of a string array, as hashed by `classKeepHash`. -/
def jsonListString (l : List String) : String :=
  "[" ++ String.intercalate "," (l.map jsonString) ++ "]"

/-! ## Page rendering -/

/-- A rendered page (the result of `renderPage`). -/
structure Page where
  path : String
  html : String
  meta : Meta
  islands : List (String × IslandEntry)
  css : String
  depHashes : Snapshot
deriving DecidableEq, Repr

/-- `computeDepHashes(depPaths)`. -/
def computeDepHashes (E : Ext) (srcFs : FS) (depPaths : List String) : Snapshot :=
  depPaths.foldl
    (fun acc p => jset acc (E.resolveInput p) (hashFile E.md5 srcFs (E.resolveInput p))) []

/-- `renderPage(pagePath)`: compile (collecting CSS and the dependency set),
execute, render; `none` models the `null` return for a page without a default
export.  The per-page island registry reset is reflected in `islands` being
part of the compile result. -/
def renderPage (E : Ext) (srcFs : FS) (pagePath : String) : Option Page :=
  let out := E.compilePage pagePath
  let depPaths := jsDedup (out.inputs.map E.resolveInput ++ out.cssPaths)
  let dh := computeDepHashes E srcFs depPaths
  let pageCss := strTrim (composeCollectedCss out.cssEntries)
  if out.hasDefault then some ⟨pagePath, out.html, out.meta, out.islands, pageCss, dh⟩
  else none

/-! ## Build orchestrator (`build`) -/

/-- Mutable world of a build: the output store plus the observable lists of
deletions (`rmSync`) and writes (`writeFileSync`) it performed, in order. -/
structure BuildSt where
  outFs : FS
  deletions : List String
  writes : List String
deriving DecidableEq, Repr

/-- Stale-page cleanup: one previous page key. -/
def stalePageStep (outDir : String) (pageFiles : List String)
    (prevPages : List (String × PageRecord)) (st : BuildSt) (oldPagePath : String) :
    BuildSt :=
  if oldPagePath ∈ pageFiles then st
  else
    match jget prevPages oldPagePath with
    | none => st
    | some pr =>
      let r1 := removeOutputForUrl st.outFs st.deletions outDir pr.cssPath
      match pr.htmlPath with
      | some h =>
        if h ≠ "" ∧ fsExists r1.1 h then ⟨fsRemove r1.1 h, r1.2 ++ [h], st.writes⟩
        else ⟨r1.1, r1.2, st.writes⟩
      | none => ⟨r1.1, r1.2, st.writes⟩

/-- The loop over `Object.keys(prevPages)` deleting outputs of pages whose
source file is no longer discovered. -/
def cleanupStalePages (outDir : String) (pageFiles : List String)
    (prevPages : List (String × PageRecord)) (st : BuildSt) : BuildSt :=
  (keysOf prevPages).foldl (stalePageStep outDir pageFiles prevPages) st

/-- Classification products of the per-page loop. -/
structure ClassifyOut where
  renderedPages : List (String × Page)
  islandsByPage : List (String × List String)
  unchanged : List String
  allIslands : List (String × IslandEntry)
deriving Repr

/-- `currentDepHashes`: re-hash every path of a stored snapshot against the
filesystem. -/
def rehashSnapshot (E : Ext) (srcFs : FS) (snap : Snapshot) : Snapshot :=
  snap.foldl
    (fun (acc : Snapshot) (e : String × Option String) =>
      jset acc e.1 (hashFile E.md5 srcFs e.1)) []

/-- The `sourceChanged` test of the classification loop: `true` unless the
cached record has a stored snapshot whose re-hash matches. -/
def pageSourceChanged (E : Ext) (srcFs : FS) (prevPage : Option PageRecord) : Bool :=
  match prevPage with
  | some pr =>
    match pr.depHashes with
    | some snap => !depHashesEqual snap (rehashSnapshot E srcFs snap)
    | none => true
  | none => true

/-- One page of the classification loop: snapshot-compare against the cached
record; render now if stale (collecting its islands), otherwise carry the
cached island set forward provisionally. -/
def classifyStep (E : Ext) (srcFs : FS) (prevPages : List (String × PageRecord))
    (co : ClassifyOut) (pagePath : String) : ClassifyOut :=
  let prevPage := jget prevPages pagePath
  if pageSourceChanged E srcFs prevPage then
    match renderPage E srcFs pagePath with
    | none => co
    | some page =>
      { co with
        renderedPages := jset co.renderedPages pagePath page,
        islandsByPage := jset co.islandsByPage pagePath (keysOf page.islands),
        allIslands := page.islands.foldl (fun m e => jset m e.1 e.2) co.allIslands }
  else
    let islandSources := (prevPage.map PageRecord.islandSources).getD []
    { co with
      islandsByPage := jset co.islandsByPage pagePath islandSources,
      unchanged := co.unchanged ++ [pagePath],
      allIslands := islandSources.foldl
        (fun (m : List (String × IslandEntry)) s => jset m s ⟨s, s⟩) co.allIslands }

/-- The whole classification loop. -/
def classifyPages (E : Ext) (srcFs : FS) (prevPages : List (String × PageRecord))
    (pageFiles : List String) : ClassifyOut :=
  pageFiles.foldl (classifyStep E srcFs prevPages) ⟨[], [], [], []⟩

/-- Stale-island cleanup: one previous island key. -/
def staleIslandStep (outDir : String) (allIslands : List (String × IslandEntry))
    (prevIslands : List (String × IslandRecord)) (st : BuildSt) (oldSrc : String) :
    BuildSt :=
  if oldSrc ∈ keysOf allIslands then st
  else
    match jget prevIslands oldSrc with
    | none => st
    | some r =>
      let r1 := removeOutputForUrl st.outFs st.deletions outDir r.jsPath
      let r2 := removeOutputForUrl r1.1 r1.2 outDir r.cssPath
      ⟨r2.1, r2.2, st.writes⟩

/-- The loop over `Object.keys(prevIslands)` deleting outputs of islands no
longer referenced by any discovered page. -/
def cleanupStaleIslands (outDir : String) (allIslands : List (String × IslandEntry))
    (prevIslands : List (String × IslandRecord)) (st : BuildSt) : BuildSt :=
  (keysOf prevIslands).foldl (staleIslandStep outDir allIslands prevIslands) st

/-- The hydration footer esbuild appends to every island bundle. -/
def islandFooterJs (cls : String) : String :=
  "if(_island&&typeof _island.default===\"function\")\x7bconst nodes=document.querySelectorAll(\x27." ++
    cls ++ "\x27);for(const el of nodes)\x7b_island.default(el)\x7d\x7d"

/-- Deletion of a rebuilt island's now-orphaned previous outputs (the
`if (prev && (prev.jsPath !== jsPath || prev.cssPath !== cssPath))` block). -/
def orphanCleanup (prev : Option IslandRecord) (jsUrl : String) (cssUrl : Option String)
    (fs : FS) (dels : List String) (outDir : String) : FS × List String :=
  match prev with
  | some r =>
    if r.jsPath ≠ some jsUrl ∨ r.cssPath ≠ cssUrl then
      let p1 := removeOutputForUrl fs dels outDir r.jsPath
      removeOutputForUrl p1.1 p1.2 outDir r.cssPath
    else (fs, dels)
  | none => (fs, dels)

/-- The `canReuse` test of `buildIslands`: a previous record with a stored
(truthy) `depHashes` object whose re-hash matches, whose recorded JS output
exists on disk, and whose recorded CSS output (if any) exists on disk. -/
def islandCanReuse (E : Ext) (srcFs outFs : FS) (outDir : String)
    (prev : Option IslandRecord) : Bool :=
  match prev with
  | none => false
  | some r =>
    match r.depHashes with
    | none => false
    | some snap =>
      depHashesEqual snap (rehashSnapshot E srcFs snap) &&
        outputExistsForUrl outFs outDir r.jsPath &&
        (optFalsy r.cssPath || outputExistsForUrl outFs outDir r.cssPath)

/-- Accumulated result of the island-builder loop. -/
structure IslandsOut where
  bst : BuildSt
  paths : List (String × String)
  css : List (String × String)
  cache : List (String × IslandRecord)
  changed : List String
  compiled : List String
deriving Repr

/-- One island of `buildIslands`: skip with a warning when its source cannot
be located; reuse the previous outputs when `canReuse`; otherwise compile the
bundle, write JS (and CSS when collected), run the best-effort Closure pass,
delete orphaned previous outputs and record the fresh `IslandRecord`.
(Source-map sibling files of the Closure pass are elided.) -/
def islandStep (E : Ext) (srcFs : FS) (prevIslands : List (String × IslandRecord))
    (outDir : String) (io : IslandsOut) (entry : String × IslandEntry) : IslandsOut :=
  let src := entry.1
  let srcPath := E.resolveIslandSrc src
  if ¬fsExists srcFs srcPath then { io with changed := jsAdd io.changed src }
  else
    let prev := jget prevIslands src
    if islandCanReuse E srcFs io.bst.outFs outDir prev then
      match prev with
      | some r =>
        { io with
          paths := (match r.jsPath with
            | some j => jset io.paths src j
            | none => io.paths),
          css := (match r.cssPath with
            | some c => if c = "" then io.css else jset io.css src c
            | none => io.css),
          cache := jset io.cache src r }
      | none => io
    else
      let content := (jget srcFs srcPath).getD ""
      let baseName := basenameNoExt srcPath
      let fileHash := if E.isProd then "." ++ hash8 E content else ""
      let outName := baseName ++ fileHash ++ ".js"
      let cls := getIslandClassName src
      let co := E.compileIsland srcPath
      let jsDisk := joinP (joinP outDir "islands") outName
      let jsWritten := co.jsContent ++ islandFooterJs cls
      let fs1 := fsWrite io.bst.outFs jsDisk jsWritten
      let w1 := io.bst.writes ++ [jsDisk]
      let cssContent := strTrim (composeCollectedCss co.cssEntries)
      let step2 : FS × List String × List (String × String) :=
        if cssContent = "" then (fs1, w1, io.css)
        else
          let minified := minifyCss E cssContent
          let cssHash := if E.isProd then "." ++ hash8 E minified else ""
          let cssName := baseName ++ cssHash ++ ".css"
          let cssDisk := joinP (joinP outDir "islands") cssName
          (fsWrite fs1 cssDisk minified, w1 ++ [cssDisk],
            jset io.css src ("/islands/" ++ cssName))
      let fs2 := step2.1
      let w2 := step2.2.1
      let cssMap := step2.2.2
      let fs3 :=
        if E.isProd then
          match E.closure jsWritten with
          | some compiled =>
            fsWrite fs2 jsDisk (compiled ++ "\n//# sourceMappingURL=" ++ outName ++ ".map")
          | none => fs2
        else fs2
      let depPaths := jsDedup (co.inputs.map E.resolveInput ++ co.cssPaths)
      let dh := computeDepHashes E srcFs depPaths
      let jsUrl := "/islands/" ++ outName
      let cssUrl := jget cssMap src
      let step3 : FS × List String :=
        orphanCleanup prev jsUrl cssUrl fs3 io.bst.deletions outDir
      { bst := ⟨step3.1, step3.2, w2⟩,
        paths := jset io.paths src jsUrl,
        css := cssMap,
        cache := jset io.cache src ⟨srcPath, some dh, some jsUrl, cssUrl⟩,
        changed := jsAdd io.changed src,
        compiled := io.compiled ++ [src] }

/-- `buildIslands(islands, outDir, islandCache)` (the empty-map early return
coincides with the empty fold). -/
def buildIslands (E : Ext) (srcFs : FS) (prevIslands : List (String × IslandRecord))
    (outDir : String) (allIslands : List (String × IslandEntry)) (bst : BuildSt) :
    IslandsOut :=
  allIslands.foldl (islandStep E srcFs prevIslands outDir) ⟨bst, [], [], [], [], []⟩

/-- One unchanged-candidate page of the promotion loop: promote to rebuild
when a referenced island changed or its recorded outputs are missing,
otherwise carry the previous record into the next cache. -/
def promoteStep (outDir : String) (prevPages : List (String × PageRecord))
    (islandsByPage : List (String × List String)) (changed : List String) (outFs : FS)
    (acc : List String × List (String × PageRecord)) (pagePath : String) :
    List String × List (String × PageRecord) :=
  let prevPage := jget prevPages pagePath
  let islandSources := (jget islandsByPage pagePath).getD []
  let islandChanged := islandSources.any fun src => src ∈ changed
  let htmlPath :=
    match prevPage with
    | some pr =>
      match pr.htmlPath with
      | some h => if h = "" then getPageHtmlOutPath outDir pagePath else h
      | none => getPageHtmlOutPath outDir pagePath
    | none => getPageHtmlOutPath outDir pagePath
  let hasCssOutput :=
    match prevPage with
    | some pr => optFalsy pr.cssPath || outputExistsForUrl outFs outDir pr.cssPath
    | none => true
  let hasHtmlOutput := fsExists outFs htmlPath
  if islandChanged || !hasHtmlOutput || !hasCssOutput then (jsAdd acc.1 pagePath, acc.2)
  else
    match prevPage with
    | some pr => (acc.1, jset acc.2 pagePath pr)
    | none => acc

/-- Accumulated state of the final page-writing loop. -/
structure WriteAcc where
  bst : BuildSt
  rendered : List (String × Page)
  nextPages : List (String × PageRecord)
  wiring : List (String × List (String × Option String))
deriving Repr

/-- `<script src=...>` wiring: one tag per island whose compiled path is
known (`if (path) scripts += ...`). -/
def scriptsFromWiring (w : List (String × Option String)) : String :=
  String.join (w.map fun e =>
    match e.2 with
    | some p => if p = "" then "" else "<script src=\"" ++ p ++ "\"></script>"
    | none => "")

/-- `<link rel="stylesheet" ...>` wiring for island CSS. -/
def linksFromWiring (w : List (String × Option String)) : String :=
  String.join (w.map fun e =>
    match e.2 with
    | some p => if p = "" then "" else "<link rel=\"stylesheet\" href=\"" ++ p ++ "\">"
    | none => "")

/-- The page-CSS block of the write loop: when the page collected CSS,
optimise it, write it (hashed in production) and prepend its `<link>`. -/
def pageCssWrite (E : Ext) (outDir : String) (shouldPurge : Bool)
    (classKeep : List String) (bst : BuildSt) (page : Page) (cssLinks0 : String) :
    BuildSt × Option String × String :=
  if page.css = "" then (bst, none, cssLinks0)
  else
    let usedClasses := E.extractClasses page.html
    let minified := optimizeCss E page.css shouldPurge usedClasses classKeep page.path
    let route := getPageRoute page.path
    let pageCssHash := if E.isProd then "." ++ hash8 E minified else ""
    let pageCssName := route ++ pageCssHash ++ ".css"
    let disk := joinP outDir pageCssName
    (⟨fsWrite bst.outFs disk minified, bst.deletions, bst.writes ++ [disk]⟩,
      some ("/" ++ pageCssName),
      "<link rel=\"stylesheet\" href=\"/" ++ pageCssName ++ "\">" ++ cssLinks0)

/-- The stale-page-CSS removal of the write loop
(`if (prevPage?.cssPath && prevPage.cssPath !== cssPath)`). -/
def staleCssCleanup (outDir : String) (prevPage : Option PageRecord)
    (cssPathOpt : Option String) (bst : BuildSt) : FS × List String :=
  match prevPage with
  | some pr =>
    match pr.cssPath with
    | some c =>
      if c ≠ "" ∧ some c ≠ cssPathOpt then
        removeOutputForUrl bst.outFs bst.deletions outDir (some c)
      else (bst.outFs, bst.deletions)
    | none => (bst.outFs, bst.deletions)
  | none => (bst.outFs, bst.deletions)

/-- The write loop's page lookup: reuse the already-rendered page or render
now (`if (!renderedPages.has(pagePath)) { ... }`), returning the updated
rendered map and the page (or `none` for a module without a default export,
which the loop skips). -/
def fetchPage (E : Ext) (srcFs : FS) (rendered : List (String × Page))
    (pagePath : String) : List (String × Page) × Option Page :=
  match jget rendered pagePath with
  | some pg => (rendered, some pg)
  | none =>
    match renderPage E srcFs pagePath with
    | none => (rendered, none)
    | some pg => (jset rendered pagePath pg, some pg)

/-- One page of the final writing loop: render it if not already rendered
(skipping pages without a default export), wire island scripts/links, write
the page CSS (purged/minified as configured), drop a stale previous CSS
output, assemble the document, write it and record the fresh `PageRecord`. -/
def writePageStep (E : Ext) (srcFs : FS) (outDir : String)
    (prevPages : List (String × PageRecord)) (islandPaths islandCss : List (String × String))
    (shouldPurge : Bool) (classKeep : List String) (acc : WriteAcc) (pagePath : String) :
    WriteAcc :=
  let fetch := fetchPage E srcFs acc.rendered pagePath
  match fetch.2 with
  | none => { acc with rendered := fetch.1 }
  | some page =>
    let prevPage := jget prevPages pagePath
    let wiringJs := page.islands.map fun e => (e.1, jget islandPaths e.1)
    let scripts := scriptsFromWiring wiringJs
    let wiringCss := page.islands.map fun e => (e.1, jget islandCss e.1)
    let cssLinks0 := linksFromWiring wiringCss
    let step1 := pageCssWrite E outDir shouldPurge classKeep acc.bst page cssLinks0
    let bst1 := step1.1
    let cssPathOpt := step1.2.1
    let cssLinks := step1.2.2
    let step2 := staleCssCleanup outDir prevPage cssPathOpt bst1
    let html := wrapDocument E.renderHead page.html page.meta scripts cssLinks
    let outPath := getPageHtmlOutPath outDir page.path
    let fs3 := fsWrite step2.1 outPath html
    { bst := ⟨fs3, step2.2, bst1.writes ++ [outPath]⟩,
      rendered := fetch.1,
      nextPages := jset acc.nextPages pagePath
        ⟨some page.depHashes, keysOf page.islands, some outPath, cssPathOpt⟩,
      wiring := jset acc.wiring pagePath wiringJs }

/-- Observable result of one `build()` invocation. -/
structure BuildResult where
  saved : Cache
  outFs : FS
  deletions : List String
  writes : List String
  islandPaths : List (String × String)
  islandCss : List (String × String)
  changedSources : List String
  compiled : List String
  wiring : List (String × List (String × Option String))
  pagesToWrite : List String
deriving Repr

/-- Stages (1)–(5) of the orchestrator up to and including the island build:
stale-page cleanup, classification, stale-island cleanup, island build. -/
def islandsStage (E : Ext) (srcFs outFs0 : FS) (outDir : String)
    (pageFiles : List String) (prevPages : List (String × PageRecord))
    (prevIslands : List (String × IslandRecord)) : IslandsOut :=
  buildIslands E srcFs prevIslands outDir
    (classifyPages E srcFs prevPages pageFiles).allIslands
    (cleanupStaleIslands outDir (classifyPages E srcFs prevPages pageFiles).allIslands
      prevIslands (cleanupStalePages outDir pageFiles prevPages ⟨outFs0, [], []⟩))

/-- Stage (6): promotion of unchanged-candidate pages, yielding the
`pagesToWrite` set and the carried-over next-page records. -/
def promoStage (E : Ext) (srcFs outFs0 : FS) (outDir : String)
    (pageFiles : List String) (prevPages : List (String × PageRecord))
    (prevIslands : List (String × IslandRecord)) :
    List String × List (String × PageRecord) :=
  (classifyPages E srcFs prevPages pageFiles).unchanged.foldl
    (promoteStep outDir prevPages
      (classifyPages E srcFs prevPages pageFiles).islandsByPage
      (islandsStage E srcFs outFs0 outDir pageFiles prevPages prevIslands).changed
      (islandsStage E srcFs outFs0 outDir pageFiles prevPages prevIslands).bst.outFs)
    (keysOf (classifyPages E srcFs prevPages pageFiles).renderedPages, [])

/-- Stages (7)–(8): the final page rendering/writing loop. -/
def writeStage (E : Ext) (srcFs outFs0 : FS) (outDir : String)
    (pageFiles : List String) (prevPages : List (String × PageRecord))
    (prevIslands : List (String × IslandRecord)) (purgeFlag : Option Bool)
    (classKeep : List String) : WriteAcc :=
  (promoStage E srcFs outFs0 outDir pageFiles prevPages prevIslands).1.foldl
    (writePageStep E srcFs outDir prevPages
      (islandsStage E srcFs outFs0 outDir pageFiles prevPages prevIslands).paths
      (islandsStage E srcFs outFs0 outDir pageFiles prevPages prevIslands).css
      (purgeFlag.getD E.isProd) classKeep)
    ⟨(islandsStage E srcFs outFs0 outDir pageFiles prevPages prevIslands).bst,
      (classifyPages E srcFs prevPages pageFiles).renderedPages,
      (promoStage E srcFs outFs0 outDir pageFiles prevPages prevIslands).2, []⟩

/-- The body of `build({purge})` past the no-pages early return, over an
already-loaded cache (`prevPages`/`prevIslands` are the `pages`/`islands`
of `loadCache`'s result). -/
def buildCore (E : Ext) (srcFs outFs0 : FS) (outDir : String) (pageFiles : List String)
    (prevPages : List (String × PageRecord)) (prevIslands : List (String × IslandRecord))
    (purgeFlag : Option Bool) (classKeep : List String) : BuildResult :=
  { saved := ⟨CACHE_VERSION, modeString E.isProd, purgeFlag.getD E.isProd,
      E.md5 (jsonListString classKeep),
      (writeStage E srcFs outFs0 outDir pageFiles prevPages prevIslands purgeFlag
        classKeep).nextPages,
      (islandsStage E srcFs outFs0 outDir pageFiles prevPages prevIslands).cache⟩,
    outFs := (writeStage E srcFs outFs0 outDir pageFiles prevPages prevIslands purgeFlag
      classKeep).bst.outFs,
    deletions := (writeStage E srcFs outFs0 outDir pageFiles prevPages prevIslands
      purgeFlag classKeep).bst.deletions,
    writes := (writeStage E srcFs outFs0 outDir pageFiles prevPages prevIslands purgeFlag
      classKeep).bst.writes,
    islandPaths := (islandsStage E srcFs outFs0 outDir pageFiles prevPages prevIslands).paths,
    islandCss := (islandsStage E srcFs outFs0 outDir pageFiles prevPages prevIslands).css,
    changedSources := (islandsStage E srcFs outFs0 outDir pageFiles prevPages
      prevIslands).changed,
    compiled := (islandsStage E srcFs outFs0 outDir pageFiles prevPages prevIslands).compiled,
    wiring := (writeStage E srcFs outFs0 outDir pageFiles prevPages prevIslands purgeFlag
      classKeep).wiring,
    pagesToWrite := (promoStage E srcFs outFs0 outDir pageFiles prevPages prevIslands).1 }

/-- `build({purge})`: `none` when no pages are discovered (the early return
that skips `saveCache`); otherwise the saved cache together with the build's
observable effects. -/
def buildRun (E : Ext) (srcFs outFs0 : FS) (outDir : String) (pageFiles : List String)
    (prevPages : List (String × PageRecord)) (prevIslands : List (String × IslandRecord))
    (purgeFlag : Option Bool) (classKeep : List String) : Option BuildResult :=
  if pageFiles = [] then none
  else some (buildCore E srcFs outFs0 outDir pageFiles prevPages prevIslands purgeFlag classKeep)

/-! ## Dev server (`serve` request handler) -/

/-- HTTP outcomes of the request handler. -/
inductive HttpResp
  | eventStream
  | badRequest
  | forbidden
  | notFound
  | ok (contentType : String) (body : String)
deriving DecidableEq, Repr

/-- The file bytes a response carries (`none` for every non-200 outcome). -/
def servedFileBytes : HttpResp → Option String
  | .ok _ b => some b
  | _ => none

def LIVE_RELOAD_PATH : String := "/__fleax_live"

/-- The live-reload client script injected into served HTML. -/
def liveReloadScript : String :=
  "<script>(()=>\x7bconst es=new EventSource(\"" ++ LIVE_RELOAD_PATH ++
    "\");es.addEventListener(\"reload\",()=>location.reload());es.onerror=()=>\x7b\x7d;\x7d)();</script>"

/-- `path.split("?")[0].split("#")[0]`. -/
def stripQueryFragment (s : String) : String :=
  (strSplitOn ((strSplitOn s "?").headD "") "#").headD ""

/-- Hexadecimal digit value. -/
def hexVal (c : Char) : Option Nat :=
  if 48 ≤ c.toNat ∧ c.toNat ≤ 57 then some (c.toNat - 48)
  else if 65 ≤ c.toNat ∧ c.toNat ≤ 70 then some (c.toNat - 55)
  else if 97 ≤ c.toNat ∧ c.toNat ≤ 102 then some (c.toNat - 87)
  else none

/-- `decodeURIComponent`, character-wise (`%` is code 37); `none` models the
`URIError` caught by the handler (which then responds 400). -/
def percentDecodeGo : List Char → Option (List Char)
  | [] => some []
  | c :: rest =>
    if c.toNat = 37 then
      match rest with
      | h1 :: h2 :: rest2 =>
        match hexVal h1, hexVal h2 with
        | some a, some b => (percentDecodeGo rest2).map fun l => Char.ofNat (16 * a + b) :: l
        | _, _ => none
      | _ => none
    else (percentDecodeGo rest).map fun l => c :: l

def percentDecode (s : String) : Option String :=
  (percentDecodeGo s.data).map String.mk

/-- `path.replace(/^\/+/, "")` (47 is `/`). -/
def dropLeadingSlashes (s : String) : String :=
  String.mk (s.data.dropWhile fun c => c.toNat = 47)

/-- One segment of POSIX path normalisation (`""` and `"."` collapse, `".."`
pops, as `resolve` does above the root). -/
def normStep (acc : List String) (c : String) : List String :=
  if c = "" ∨ c = "." then acc
  else if c = ".." then acc.dropLast
  else acc ++ [c]

/-- `resolve(outRoot, relativePath)` on component lists: the output root is
the already-resolved `resolve(outDir)`, represented as its (normalised,
special-segment-free) component list; the relative path is split on `/` and
folded on top of it.  Canonical component lists stand in bijection with the
absolute path strings the source compares, with `filePath === outRoot`
matching list equality and `filePath.startsWith(outRoot + sep)` matching
strict list-prefix. -/
def resolveComps (outRoot : List String) (rel : String) : List String :=
  (strSplitOn rel "/").foldl normStep outRoot

/-- Server environment: resolved output root, files and directories of the
output tree (keyed by absolute component lists). -/
structure ServeEnv where
  outRoot : List String
  files : List (List String × String)
  dirs : List (List String)

/-- Lookup among the served files. -/
def sget : List (List String × String) → List String → Option String
  | [], _ => none
  | (k, v) :: rest, key => if k = key then some v else sget rest key

/-- The resolved target of a request path, as the handler computes it
(strip query/fragment, percent-decode, `/` → `/index.html`, strip leading
slashes, resolve against the root); `none` when decoding fails. -/
def resolvedTarget (outRoot : List String) (url : String) : Option (List String) :=
  match percentDecode (stripQueryFragment url) with
  | none => none
  | some p0 =>
    let p := if p0 = "/" then "/index.html" else p0
    some (resolveComps outRoot (dropLeadingSlashes p))

/-- `mimeTypes[ext] || "application/octet-stream"`. -/
def mimeFor (ext : String) : String :=
  (jget [(".html", "text/html"), (".css", "text/css"), (".js", "application/javascript"),
      (".json", "application/json"), (".png", "image/png"), (".jpg", "image/jpeg"),
      (".svg", "image/svg+xml"), (".ico", "image/x-icon")] ext).getD
    "application/octet-stream"

/-- `html.replace("</body>", liveReloadScript + "</body>")` when present,
else append the script. -/
def injectLiveReload (html : String) : String :=
  match strSplitOn html "</body>" with
  | [] => html ++ liveReloadScript
  | [_] => html ++ liveReloadScript
  | a :: rest =>
    a ++ liveReloadScript ++ "</body>" ++ String.intercalate "</body>" rest

/-- The `serve` request handler for a single request. -/
def handleRequest (env : ServeEnv) (url : String) : HttpResp :=
  if url = LIVE_RELOAD_PATH then .eventStream
  else
    match percentDecode (stripQueryFragment url) with
    | none => .badRequest
    | some p0 =>
      let p := if p0 = "/" then "/index.html" else p0
      let fileComps := resolveComps env.outRoot (dropLeadingSlashes p)
      if fileComps ≠ env.outRoot ∧
          ¬(env.outRoot.isPrefixOf fileComps = true ∧ fileComps ≠ env.outRoot) then
        .forbidden
      else
        let fileComps2 :=
          if fileComps ∈ env.dirs then fileComps ++ ["index.html"] else fileComps
        match sget env.files fileComps2 with
        | none => .notFound
        | some content =>
          let ext := extOf ((fileComps2.getLastD ""))
          if ext = ".html" then .ok (mimeFor ext) (injectLiveReload content)
          else .ok (mimeFor ext) content

/-! ## Watch-mode trigger discipline (`watchMode` / `serve --hot`) -/

/-- The scheduler-visible state of the debounced rebuild trigger: the
`building` and `queued` flags, whether a debounce timer is pending, plus two
ghost counters (builds started, builds in flight) used to state concurrency
properties. -/
structure WatchSt where
  building : Bool
  queued : Bool
  timerOn : Bool
  started : Nat
  active : Nat
deriving DecidableEq, Repr

/-- Events: a watcher callback invoking `trigger()` (which (re)arms the
debounce timer), the debounce timer firing (the body of the `setTimeout`
callback), and an in-flight build finishing (the `finally` block). -/
inductive WatchEv
  | fsChange
  | timerFire
  | buildDone
deriving DecidableEq, Repr

/-- Transition function, straight from `trigger`/`triggerBuild`:
a timer fire while `building` only sets `queued`; a finish with `queued` set
clears it and re-arms the timer (the `trigger()` call in `finally`). -/
def watchStep (s : WatchSt) : WatchEv → WatchSt
  | .fsChange => { s with timerOn := true }
  | .timerFire =>
    if s.timerOn then
      if s.building then { s with timerOn := false, queued := true }
      else
        { s with
          timerOn := false
          building := true
          started := s.started + 1
          active := s.active + 1 }
    else s
  | .buildDone =>
    if s.building then
      if s.queued then
        { s with
          building := false
          active := s.active - 1
          queued := false
          timerOn := true }
      else { s with building := false, active := s.active - 1 }
    else s

def watchRun (s : WatchSt) (evs : List WatchEv) : WatchSt := evs.foldl watchStep s

def watchInit : WatchSt := ⟨false, false, false, 0, 0⟩

/-- `n` watcher triggers, each followed by its debounce firing. -/
def trigBurst : Nat → List WatchEv
  | 0 => []
  | n + 1 => [.fsChange, .timerFire] ++ trigBurst n

/-- The classification loop's invariant needed for the cache-save invariant:
every unchanged-candidate page has its cached record's island sources inside
the accumulated island set, every rendered page is `renderPage`'s output and
its island keys are inside the accumulated island set, and both key lists
stay inside the processed page list. -/
abbrev ClassInv (E : Ext) (srcFs : FS) (prevPages : List (String × PageRecord))
    (pageFiles : List String) (co : ClassifyOut) : Prop :=
  (∀ p ∈ co.unchanged, ∃ pr, jget prevPages p = some pr ∧
    (∀ s ∈ pr.islandSources, s ∈ keysOf co.allIslands) ∧ p ∈ pageFiles) ∧
  (∀ p pg, jget co.renderedPages p = some pg → renderPage E srcFs p = some pg) ∧
  (∀ p ∈ keysOf co.renderedPages, p ∈ pageFiles) ∧
  (keysOf co.allIslands).Nodup

/-! ## Concrete evaluation fixtures

Small closed instantiations of the external collaborators, used to evaluate
the model at concrete inputs. -/

def exMeta : Meta := ⟨some "T", some "en", .absent, none⟩

def exExt : Ext where
  isProd := false
  md5 := fun s => "h" ++ s
  resolveIslandSrc := fun s => s
  resolveInput := fun s => s
  compileIsland := fun _ => ⟨"JS", ["X"], [], []⟩
  compilePage := fun p => ⟨true, "<div class=\"btn\"></div>", exMeta, [("X", ⟨"X", "X"⟩)], [p], [], []⟩
  extractClasses := fun _ => []
  extractSymbols := fun _ => []
  lcss := fun c _ _ _ => c
  lcssMinify := fun c => c
  closure := fun _ => none
  renderHead := fun h => h

/-- Source tree containing both pages and the island source `X`. -/
def exSrcFs : FS := [("p", "PAGE"), ("q", "QAGE"), ("X", "XSRC")]

/-- Source tree missing the island source `X`. -/
def exSrcFsNoX : FS := [("p", "PAGE")]

def dummyBuildResult : BuildResult :=
  ⟨⟨0, "", false, "", [], []⟩, [], [], [], [], [], [], [], [], []⟩

/-- Two discovered pages, both referencing island `X`, empty previous cache. -/
def exRunShared : BuildResult :=
  (buildRun exExt exSrcFs [] "dist" ["p", "q"] [] [] none []).getD dummyBuildResult

/-- One discovered page referencing island `X`, whose source is missing. -/
def exRunNoX : BuildResult :=
  (buildRun exExt exSrcFsNoX [] "dist" ["p"] [] [] none []).getD dummyBuildResult

/-- A previous cache with a page `old` (no longer on disk) and an island `Y`
(no longer referenced). -/
def exPrevPages : List (String × PageRecord) :=
  [("old", ⟨some [("old", some "hOLD")], ["Y"], some "dist/old/index.html", some "/old.css"⟩)]

def exPrevIslands : List (String × IslandRecord) :=
  [("Y", ⟨"Y", some [("Y", some "hY")], some "/islands/Y.js", some "/islands/Y.css"⟩)]

/-- Previous outputs on disk for the stale page and island. -/
def exOutFs0 : FS :=
  [("dist/old/index.html", "H"), ("dist/old.css", "C"),
    ("dist/islands/Y.js", "J"), ("dist/islands/Y.css", "JC")]

/-- A build over the previous cache above with pages `p`, `q` discovered. -/
def exRunGC : BuildResult :=
  (buildRun exExt exSrcFs exOutFs0 "dist" ["p", "q"] exPrevPages exPrevIslands none []).getD
    dummyBuildResult

/-- A previous island record for `X` matching `exSrcFs` (its stored hash is
`md5 "XSRC"`), with its JS and CSS outputs present on disk. -/
def exPrevIslandX : List (String × IslandRecord) :=
  [("X", ⟨"X", some [("X", some "hXSRC")], some "/islands/X.js", some "/islands/X.css"⟩)]

def exOutFsX : FS := [("dist/islands/X.js", "J"), ("dist/islands/X.css", "C")]

/-- An island-builder state holding `exOutFsX`. -/
def exIslandsOut : IslandsOut := ⟨⟨exOutFsX, [], []⟩, [], [], [], [], []⟩

/-! ## Theorems -/

theorem jget_eq_some_iff_mem_of_nodup {α : Type} {m : List (String × α)}
    (hnd : (keysOf m).Nodup) (k : String) (v : α) :
    jget m k = some v ↔ (k, v) ∈ m := by
  induction m with
  | nil => simp [jget]
  | cons e rest ih =>
    obtain ⟨k', v'⟩ := e
    simp only [keysOf, List.map_cons, List.nodup_cons] at hnd
    by_cases h : k' = k
    · subst h
      simp only [jget, if_pos rfl, List.mem_cons]
      constructor
      · intro h2
        injection h2 with h2
        exact Or.inl (by rw [← h2])
      · rintro (h2 | h2)
        · rw [Prod.mk.injEq] at h2
          rw [h2.2]
          simp
        · exact absurd (List.mem_map.mpr ⟨(k', v), h2, rfl⟩) hnd.1
    · simp only [jget, if_neg h, List.mem_cons]
      rw [ih hnd.2]
      constructor
      · exact Or.inr
      · rintro (h2 | h2)
        · exact absurd (congrArg Prod.fst h2).symm h
        · exact h2

theorem jget_isSome_iff_mem_keys {α : Type} (m : List (String × α)) (k : String) :
    (jget m k).isSome ↔ k ∈ keysOf m := by
  induction m with
  | nil => simp [jget, keysOf]
  | cons e rest ih =>
    obtain ⟨k', v'⟩ := e
    by_cases h : k' = k
    · subst h; simp [jget, keysOf]
    · simp only [jget, if_neg h, keysOf, List.map_cons, List.mem_cons]
      rw [show List.map Prod.fst rest = keysOf rest from rfl, ← ih]
      constructor
      · exact Or.inr
      · rintro (h2 | h2)
        · exact absurd h2.symm h
        · exact h2

theorem mem_of_jget_eq_some {α : Type} {m : List (String × α)} {k : String} {v : α}
    (h : jget m k = some v) : (k, v) ∈ m := by
  induction m with
  | nil => simp [jget] at h
  | cons e rest ih =>
    obtain ⟨k', v'⟩ := e
    by_cases hk : k' = k
    · subst hk
      simp only [jget, if_pos rfl] at h
      injection h with h; rw [h]; exact List.mem_cons_self _ _
    · simp only [jget, if_neg hk] at h
      exact List.mem_cons_of_mem _ (ih h)

theorem jget_jset_self {α : Type} (m : List (String × α)) (k : String) (v : α) :
    jget (jset m k v) k = some v := by
  induction m with
  | nil => simp [jset, jget]
  | cons e rest ih =>
    obtain ⟨k', v'⟩ := e
    by_cases h : k' = k
    · simp [jset, if_pos h, jget, h]
    · simp [jset, if_neg h, jget, if_neg h, ih]

theorem jget_jset_other {α : Type} (m : List (String × α)) (k k' : String) (v : α)
    (h : k ≠ k') : jget (jset m k v) k' = jget m k' := by
  induction m with
  | nil => simp [jset, jget, h]
  | cons e rest ih =>
    obtain ⟨k0, v0⟩ := e
    by_cases h0 : k0 = k
    · subst h0; simp [jset, jget, h]
    · simp only [jset, if_neg h0, jget]
      by_cases h1 : k0 = k'
      · simp [h1]
      · simp [h1, ih]

theorem keysOf_jset {α : Type} (m : List (String × α)) (k : String) (v : α) :
    keysOf (jset m k v) = if k ∈ keysOf m then keysOf m else keysOf m ++ [k] := by
  induction m with
  | nil => simp [jset, keysOf]
  | cons e rest ih =>
    obtain ⟨k', v'⟩ := e
    by_cases h : k' = k
    · subst h; simp [jset, keysOf]
    · simp only [jset, if_neg h, keysOf, List.map_cons, List.mem_cons]
      simp only [keysOf] at ih
      by_cases h2 : k ∈ List.map Prod.fst rest
      · rw [if_pos (Or.inr h2), ih, if_pos h2]
      · have hcond : ¬(k = k' ∨ k ∈ List.map Prod.fst rest) := by
          rintro (h3 | h3)
          · exact h h3.symm
          · exact h2 h3
        rw [if_neg hcond, ih, if_neg h2, List.cons_append]

theorem mem_keysOf_jset_self {α : Type} (m : List (String × α)) (k : String) (v : α) :
    k ∈ keysOf (jset m k v) := by
  rw [keysOf_jset]
  by_cases h : k ∈ keysOf m <;> simp [h]

theorem mem_keysOf_jset_of_mem {α : Type} {m : List (String × α)} {k' : String}
    (k : String) (v : α) (h : k' ∈ keysOf m) : k' ∈ keysOf (jset m k v) := by
  rw [keysOf_jset]
  by_cases h2 : k ∈ keysOf m <;> simp [h2, h]

theorem mem_keysOf_of_mem_jset {α : Type} {m : List (String × α)} {k k' : String}
    {v : α} (h : k' ∈ keysOf (jset m k v)) : k' ∈ keysOf m ∨ k' = k := by
  rw [keysOf_jset] at h
  by_cases h2 : k ∈ keysOf m
  · rw [if_pos h2] at h; exact Or.inl h
  · rw [if_neg h2] at h
    rcases List.mem_append.mp h with h3 | h3
    · exact Or.inl h3
    · exact Or.inr (List.mem_singleton.mp h3)

theorem nodup_keysOf_jset {α : Type} {m : List (String × α)}
    (hnd : (keysOf m).Nodup) (k : String) (v : α) :
    (keysOf (jset m k v)).Nodup := by
  rw [keysOf_jset]
  by_cases h : k ∈ keysOf m
  · rw [if_pos h]; exact hnd
  · rw [if_neg h, List.nodup_append]
    refine ⟨hnd, List.nodup_singleton _, ?_⟩
    intro x hx hx2
    rw [List.mem_singleton] at hx2
    subst hx2
    exact h hx

theorem mem_jset_elim {α : Type} {m : List (String × α)} {k : String} {v : α}
    {e : String × α} (h : e ∈ jset m k v) : e ∈ m ∨ e = (k, v) := by
  induction m with
  | nil =>
    simp only [jset, List.mem_singleton] at h
    exact Or.inr h
  | cons hd rest ih =>
    obtain ⟨k0, v0⟩ := hd
    by_cases h0 : k0 = k
    · simp only [jset, if_pos h0, List.mem_cons] at h
      rcases h with h1 | h1
      · exact Or.inr (by rw [h1, h0])
      · exact Or.inl (List.mem_cons_of_mem _ h1)
    · simp only [jset, if_neg h0, List.mem_cons] at h
      rcases h with h1 | h1
      · exact Or.inl (by rw [h1]; exact List.mem_cons_self _ _)
      · rcases ih h1 with h2 | h2
        · exact Or.inl (List.mem_cons_of_mem _ h2)
        · exact Or.inr h2

theorem depHashesEqual_eq_true_iff {a b : Snapshot}
    (ha : (keysOf a).Nodup) (hb : (keysOf b).Nodup) :
    depHashesEqual a b = true ↔ ∀ k, jget a k = jget b k := by
  constructor
  · rintro h k
    rw [depHashesEqual, Bool.and_eq_true] at h
    obtain ⟨hlen0, hall0⟩ := h
    have hlen : a.length = b.length := of_decide_eq_true hlen0
    rw [List.all_eq_true] at hall0
    have hall : ∀ e ∈ a, jget b e.1 = some e.2 :=
      fun e he => of_decide_eq_true (hall0 e he)
    by_cases hk : k ∈ keysOf a
    · obtain ⟨⟨k', v⟩, hmem, hfst⟩ := List.mem_map.mp hk
      cases hfst
      rw [(jget_eq_some_iff_mem_of_nodup ha k' v).mpr hmem]
      exact (hall _ hmem).symm
    · have h1 : jget a k = none := by
        cases h2 : jget a k with
        | none => rfl
        | some v =>
          exact absurd ((jget_isSome_iff_mem_keys a k).mp (by rw [h2]; rfl)) hk
      rw [h1]
      cases h2 : jget b k with
      | none => rfl
      | some v =>
        exfalso
        -- every key of `a` occurs (with equal value) among the keys of `b`;
        -- with equal lengths and no duplicates the key sets coincide, so a
        -- key of `b` missing from `a` is impossible.
        have hsub : (keysOf a).toFinset ⊆ (keysOf b).toFinset := by
          intro x hx
          rw [List.mem_toFinset] at hx ⊢
          obtain ⟨⟨x', v'⟩, hmem, hfst⟩ := List.mem_map.mp hx
          cases hfst
          have hv := hall _ hmem
          exact (jget_isSome_iff_mem_keys b x').mp (by rw [hv]; rfl)
        have hcard : (keysOf b).toFinset.card ≤ (keysOf a).toFinset.card := by
          rw [List.toFinset_card_of_nodup ha, List.toFinset_card_of_nodup hb]
          simp only [keysOf, List.length_map]
          exact le_of_eq hlen.symm
        have heq : (keysOf a).toFinset = (keysOf b).toFinset :=
          Finset.eq_of_subset_of_card_le hsub hcard
        have hkb : k ∈ keysOf b :=
          (jget_isSome_iff_mem_keys b k).mp (by rw [h2]; rfl)
        have hka : k ∈ keysOf a := by
          rw [← List.mem_toFinset, heq, List.mem_toFinset]; exact hkb
        exact hk hka
  · rintro h
    rw [depHashesEqual, Bool.and_eq_true, List.all_eq_true]
    constructor
    · -- equal pointwise lookups force equal key sets, hence equal lengths
      have hset : (keysOf a).toFinset = (keysOf b).toFinset := by
        ext x
        rw [List.mem_toFinset, List.mem_toFinset,
          ← jget_isSome_iff_mem_keys a x, ← jget_isSome_iff_mem_keys b x, h x]
      have hcard := congrArg Finset.card hset
      rw [List.toFinset_card_of_nodup ha, List.toFinset_card_of_nodup hb] at hcard
      simp only [keysOf, List.length_map] at hcard
      exact decide_eq_true hcard
    · rintro ⟨k, v⟩ hmem
      refine decide_eq_true ?_
      rw [← h k]
      exact (jget_eq_some_iff_mem_of_nodup ha k v).mpr hmem

theorem jget_of_perm {α : Type} {a a' : List (String × α)}
    (hnd : (keysOf a).Nodup) (hp : a.Perm a') (k : String) :
    jget a k = jget a' k := by
  have hnd' : (keysOf a').Nodup := (hp.map Prod.fst).nodup_iff.mp hnd
  cases h : jget a k with
  | none =>
    cases h2 : jget a' k with
    | none => rfl
    | some v =>
      have : k ∈ keysOf a := by
        rw [← jget_isSome_iff_mem_keys]
        have hm := mem_of_jget_eq_some h2
        have : (k, v) ∈ a := hp.symm.subset hm
        rw [(jget_eq_some_iff_mem_of_nodup hnd k v).mpr this]; rfl
      rw [← jget_isSome_iff_mem_keys, h] at this
      simp at this
  | some v =>
    have hm := mem_of_jget_eq_some h
    exact ((jget_eq_some_iff_mem_of_nodup hnd' k v).mpr (hp.subset hm)).symm

/-- C2.  `depHashesEqual` ignores entry order and is sensitive to the key
set: permuting the entries of either snapshot (they have unique keys, as all
JS objects do) never changes the verdict; two snapshots are equal exactly
when they have the same key set and agree on the hash at every key; and a
snapshot with a strictly smaller key set — `{a: h1}` against
`{a: h1, b: h2}` — is never equal to the larger one even though all shared
paths carry matching hashes. -/
theorem depHashesEqual_order_independent_and_keyset_sensitive
    (a a' b b' : Snapshot)
    (ha : (keysOf a).Nodup) (hb : (keysOf b).Nodup)
    (hpa : a.Perm a') (hpb : b.Perm b') :
    depHashesEqual a b = depHashesEqual a' b' ∧
    (depHashesEqual a b = true ↔
      ((∀ k, k ∈ keysOf a ↔ k ∈ keysOf b) ∧
        ∀ k, k ∈ keysOf a → jget a k = jget b k)) ∧
    depHashesEqual [("a", some "1")] [("a", some "1"), ("b", some "2")] = false ∧
    depHashesEqual [("a", some "1"), ("b", some "2")] [("a", some "1")] = false := by
  have ha' : (keysOf a').Nodup := (hpa.map Prod.fst).nodup_iff.mp ha
  have hb' : (keysOf b').Nodup := (hpb.map Prod.fst).nodup_iff.mp hb
  refine ⟨?_, ?_, by decide, by decide⟩
  · have h1 := depHashesEqual_eq_true_iff ha hb
    have h2 := depHashesEqual_eq_true_iff ha' hb'
    have hiff : depHashesEqual a b = true ↔ depHashesEqual a' b' = true := by
      rw [h1, h2]
      constructor
      · rintro h k
        rw [← jget_of_perm ha hpa, ← jget_of_perm hb hpb]; exact h k
      · rintro h k
        rw [jget_of_perm ha hpa, jget_of_perm hb hpb]; exact h k
    cases hx : depHashesEqual a b <;> cases hy : depHashesEqual a' b'
    · rfl
    · exact absurd (hiff.mpr hy) (by rw [hx]; simp)
    · exact absurd (hiff.mp hx) (by rw [hy]; simp)
    · rfl
  · rw [depHashesEqual_eq_true_iff ha hb]
    constructor
    · rintro h
      refine ⟨fun k => ?_, fun k _ => h k⟩
      rw [← jget_isSome_iff_mem_keys, ← jget_isSome_iff_mem_keys, h k]
    · rintro ⟨hks, hvs⟩ k
      by_cases hk : k ∈ keysOf a
      · exact hvs k hk
      · have hk2 : k ∉ keysOf b := fun h2 => hk ((hks k).mpr h2)
        rw [← jget_isSome_iff_mem_keys] at hk hk2
        cases h1 : jget a k with
        | none =>
          cases h2 : jget b k with
          | none => rfl
          | some v => rw [h2] at hk2; simp at hk2
        | some v => rw [h1] at hk; simp at hk

/-- Witness for C2 at concrete snapshots. -/
theorem depHashesEqual_order_independent_witness :
    depHashesEqual [("x", some "h"), ("y", none)] [("y", none), ("x", some "h")] =
      depHashesEqual [("y", none), ("x", some "h")] [("x", some "h"), ("y", none)] ∧
    (depHashesEqual [("x", some "h"), ("y", none)] [("y", none), ("x", some "h")] = true ↔
      ((∀ k, k ∈ keysOf [("x", some "h"), ("y", none)] ↔
          k ∈ keysOf [("y", none), ("x", some "h")]) ∧
        ∀ k, k ∈ keysOf [("x", some "h"), ("y", none)] →
          jget [("x", some "h"), ("y", none)] k = jget [("y", none), ("x", some "h")] k)) ∧
    depHashesEqual [("a", some "1")] [("a", some "1"), ("b", some "2")] = false ∧
    depHashesEqual [("a", some "1"), ("b", some "2")] [("a", some "1")] = false :=
  depHashesEqual_order_independent_and_keyset_sensitive
    [("x", some "h"), ("y", none)] [("y", none), ("x", some "h")]
    [("y", none), ("x", some "h")] [("x", some "h"), ("y", none)]
    (by decide) (by decide) (List.Perm.swap _ _ _) (List.Perm.swap _ _ _)

/-! ### C4: cache load reset -/

/-- C4.  For every persisted cache-file state, `loadCache(profile)` returns
the fresh empty cache tagged with the current version, mode, purge flag and
`classKeepHash` whenever the file is absent, unreadable/unparseable, or its
`(version, mode, purge, classKeepHash)` tuple differs from the current run's
profile.  `loadCache` is a total function (the source wraps the read and
parse in try/catch), so it never raises.  The version-0-under-version-1 case
is the witness below. -/
theorem claimC4_cache_load_reset (isProd : Bool) (st : CacheFileState) (profile : Profile)
    (h : st = .absent ∨ st = .unreadable ∨
      ∃ raw, st = .parsed raw ∧
        (raw.version ≠ some CACHE_VERSION ∨ raw.mode ≠ some (modeString isProd) ∨
          raw.purge ≠ some profile.purge ∨
          raw.classKeepHash ≠ some profile.classKeepHash)) :
    loadCache isProd st profile = freshCache isProd profile ∧
    (loadCache isProd st profile).version = CACHE_VERSION ∧
    (loadCache isProd st profile).mode = modeString isProd ∧
    (loadCache isProd st profile).purge = profile.purge ∧
    (loadCache isProd st profile).classKeepHash = profile.classKeepHash ∧
    (loadCache isProd st profile).pages = [] ∧
    (loadCache isProd st profile).islands = [] := by
  have heq : loadCache isProd st profile = freshCache isProd profile := by
    rcases h with h | h | ⟨raw, hst, hmis⟩
    · rw [h]; rfl
    · rw [h]; rfl
    · rw [hst]
      rw [loadCache]
      rw [if_pos hmis]
  refine ⟨heq, ?_, ?_, ?_, ?_, ?_, ?_⟩ <;> rw [heq] <;> rfl

/-- Witness for C4: a parsed manifest with `version: 0` under
`CACHE_VERSION = 1` is discarded and replaced by the fresh empty cache. -/
theorem claimC4_witness :
    loadCache false
        (.parsed ⟨some 0, some "development", some false, some "K", some [], some []⟩)
        ⟨false, "K"⟩ =
      freshCache false ⟨false, "K"⟩ ∧
    (loadCache false
        (.parsed ⟨some 0, some "development", some false, some "K", some [], some []⟩)
        ⟨false, "K"⟩).version = CACHE_VERSION ∧
    (loadCache false
        (.parsed ⟨some 0, some "development", some false, some "K", some [], some []⟩)
        ⟨false, "K"⟩).mode = modeString false ∧
    (loadCache false
        (.parsed ⟨some 0, some "development", some false, some "K", some [], some []⟩)
        ⟨false, "K"⟩).purge = (⟨false, "K"⟩ : Profile).purge ∧
    (loadCache false
        (.parsed ⟨some 0, some "development", some false, some "K", some [], some []⟩)
        ⟨false, "K"⟩).classKeepHash = (⟨false, "K"⟩ : Profile).classKeepHash ∧
    (loadCache false
        (.parsed ⟨some 0, some "development", some false, some "K", some [], some []⟩)
        ⟨false, "K"⟩).pages = [] ∧
    (loadCache false
        (.parsed ⟨some 0, some "development", some false, some "K", some [], some []⟩)
        ⟨false, "K"⟩).islands = [] :=
  claimC4_cache_load_reset false
    (.parsed ⟨some 0, some "development", some false, some "K", some [], some []⟩)
    ⟨false, "K"⟩
    (Or.inr (Or.inr ⟨_, rfl, Or.inl (by decide)⟩))

/-! ### C5: purge keep-set expansion -/

theorem mem_jsAdd {s x : String} {l : List String} :
    s ∈ jsAdd l x ↔ s ∈ l ∨ s = x := by
  rw [jsAdd]
  by_cases h : x ∈ l
  · rw [if_pos h]
    constructor
    · exact Or.inl
    · rintro (h2 | h2)
      · exact h2
      · rw [h2]; exact h
  · rw [if_neg h]
    rw [List.mem_append, List.mem_singleton]

theorem expandedKeep_go_mem (keep : List String) :
    ∀ (l acc : List String) (s : String),
      s ∈ l.foldl
          (fun acc symbol =>
            if keep.any (classMatchesToken symbol) then jsAdd acc symbol else acc) acc ↔
        s ∈ acc ∨ (s ∈ l ∧ keep.any (classMatchesToken s) = true) := by
  intro l
  induction l with
  | nil => intro acc s; simp
  | cons a l ih =>
    intro acc s
    rw [List.foldl_cons]
    rw [ih]
    by_cases ha : keep.any (classMatchesToken a) = true
    · rw [if_pos ha]
      rw [mem_jsAdd]
      constructor
      · rintro ((h | h) | h)
        · exact Or.inl h
        · subst h; exact Or.inr ⟨List.mem_cons_self _ _, ha⟩
        · exact Or.inr ⟨List.mem_cons_of_mem _ h.1, h.2⟩
      · rintro (h | ⟨hm, hs⟩)
        · exact Or.inl (Or.inl h)
        · rcases List.mem_cons.mp hm with h2 | h2
          · exact Or.inl (Or.inr h2)
          · exact Or.inr ⟨h2, hs⟩
    · rw [if_neg ha]
      constructor
      · rintro (h | h)
        · exact Or.inl h
        · exact Or.inr ⟨List.mem_cons_of_mem _ h.1, h.2⟩
      · rintro (h | ⟨hm, hs⟩)
        · exact Or.inl h
        · rcases List.mem_cons.mp hm with h2 | h2
          · subst h2; exact absurd hs ha
          · exact Or.inr ⟨h2, hs⟩

/-- C5.  The purge keep-set expansion of `optimizeCss`: a CSS symbol lands in
the expanded keep set iff it is in the keep set itself, or it matches some
keep token (equality, or one of symbol/token extended with `-` being a
prefix of the other); the symbols handed to the minifier as eligible for
removal are exactly the CSS symbols outside the expanded keep set; with
purging on, `optimizeCss` passes exactly that list to the CSS transform; and
on symbols `{btn, btn-active, card}` with keep set `{btn}` the expansion
keeps `btn-active` and drops `card`. -/
theorem claimC5_purge_keep_expansion :
    (∀ allSymbols keep s,
      s ∈ expandedKeepSet allSymbols keep ↔
        s ∈ keep ∨
          (s ∈ allSymbols ∧
            ∃ t ∈ keep,
              (s = t ∨ strStartsWith s (t ++ "-") = true ∨ strStartsWith t (s ++ "-") = true))) ∧
    (∀ allSymbols keep s,
      s ∈ unusedSymbolsFor allSymbols keep ↔
        s ∈ allSymbols ∧ ¬s ∈ expandedKeepSet allSymbols keep) ∧
    (∀ (E : Ext) css usedClasses classKeep filename,
      optimizeCss E css true usedClasses classKeep filename =
        E.lcss css filename E.isProd
          (some (unusedSymbolsFor (E.extractSymbols css)
            (jsDedup (usedClasses ++ classKeep))))) ∧
    ("btn-active" ∈ expandedKeepSet ["btn", "btn-active", "card"] ["btn"] ∧
      ¬"card" ∈ expandedKeepSet ["btn", "btn-active", "card"] ["btn"]) := by
  refine ⟨?_, ?_, ?_, by decide, by decide⟩
  · intro allSymbols keep s
    rw [expandedKeepSet, expandedKeep_go_mem]
    constructor
    · rintro (h | ⟨hm, hs⟩)
      · exact Or.inl h
      · refine Or.inr ⟨hm, ?_⟩
        obtain ⟨t, ht, hmt⟩ := List.any_eq_true.mp hs
        refine ⟨t, ht, ?_⟩
        rw [classMatchesToken, Bool.or_eq_true, Bool.or_eq_true] at hmt
        rcases hmt with (hmt | hmt) | hmt
        · exact Or.inl (of_decide_eq_true hmt)
        · exact Or.inr (Or.inl hmt)
        · exact Or.inr (Or.inr hmt)
    · rintro (h | ⟨hm, t, ht, hmt⟩)
      · exact Or.inl h
      · refine Or.inr ⟨hm, List.any_eq_true.mpr ⟨t, ht, ?_⟩⟩
        rw [classMatchesToken, Bool.or_eq_true, Bool.or_eq_true]
        rcases hmt with hmt | hmt | hmt
        · exact Or.inl (Or.inl (decide_eq_true hmt))
        · exact Or.inl (Or.inr hmt)
        · exact Or.inr hmt
  · intro allSymbols keep s
    rw [unusedSymbolsFor, List.mem_filter]
    rw [decide_eq_true_eq]
  · intro E css usedClasses classKeep filename
    rw [optimizeCss]
    rw [if_neg (by simp)]
    simp

/-! ### C10: meta-derived text is escaped in the assembled document -/

theorem decDigit_range (d : Nat) :
    48 ≤ (decDigit d).toNat ∧ (decDigit d).toNat ≤ 57 := by
  rcases d with _ | _ | _ | _ | _ | _ | _ | _ | _ | _ | d
  · exact (by decide : 48 ≤ (Char.ofNat 48).toNat ∧ (Char.ofNat 48).toNat ≤ 57)
  · exact (by decide : 48 ≤ (Char.ofNat 49).toNat ∧ (Char.ofNat 49).toNat ≤ 57)
  · exact (by decide : 48 ≤ (Char.ofNat 50).toNat ∧ (Char.ofNat 50).toNat ≤ 57)
  · exact (by decide : 48 ≤ (Char.ofNat 51).toNat ∧ (Char.ofNat 51).toNat ≤ 57)
  · exact (by decide : 48 ≤ (Char.ofNat 52).toNat ∧ (Char.ofNat 52).toNat ≤ 57)
  · exact (by decide : 48 ≤ (Char.ofNat 53).toNat ∧ (Char.ofNat 53).toNat ≤ 57)
  · exact (by decide : 48 ≤ (Char.ofNat 54).toNat ∧ (Char.ofNat 54).toNat ≤ 57)
  · exact (by decide : 48 ≤ (Char.ofNat 55).toNat ∧ (Char.ofNat 55).toNat ≤ 57)
  · exact (by decide : 48 ≤ (Char.ofNat 56).toNat ∧ (Char.ofNat 56).toNat ≤ 57)
  · exact (by decide : 48 ≤ (Char.ofNat 57).toNat ∧ (Char.ofNat 57).toNat ≤ 57)
  · exact (by decide : 48 ≤ (Char.ofNat 57).toNat ∧ (Char.ofNat 57).toNat ≤ 57)

theorem natDecimalGo_digits :
    ∀ (fuel n : Nat) (acc : List Char),
      (∀ c ∈ acc, 48 ≤ c.toNat ∧ c.toNat ≤ 57) →
      ∀ c ∈ natDecimalGo fuel n acc, 48 ≤ c.toNat ∧ c.toNat ≤ 57 := by
  intro fuel
  induction fuel with
  | zero => intro n acc hacc; exact hacc
  | succ fuel ih =>
    intro n acc hacc c hc
    rw [natDecimalGo] at hc
    by_cases h : n < 10
    · rw [if_pos h] at hc
      rcases List.mem_cons.mp hc with h2 | h2
      · rw [h2]; exact decDigit_range n
      · exact hacc c h2
    · rw [if_neg h] at hc
      refine ih (n / 10) _ ?_ c hc
      intro c2 hc2
      rcases List.mem_cons.mp hc2 with h2 | h2
      · rw [h2]; exact decDigit_range (n % 10)
      · exact hacc c2 h2

theorem escapeChar_safe (c c2 : Char) (h : c2 ∈ (escapeChar c).data) :
    c2.toNat ≠ 60 ∧ c2.toNat ≠ 62 ∧ c2.toNat ≠ 34 ∧ c2.toNat ≠ 39 := by
  rw [escapeChar] at h
  by_cases hd : c.toNat = 38 ∨ c.toNat = 60 ∨ c.toNat = 62 ∨ c.toNat = 34 ∨ c.toNat = 39
  · rw [if_pos hd] at h
    rw [String.data_append, String.data_append] at h
    rcases List.mem_append.mp h with h2 | h2
    · rcases List.mem_append.mp h2 with h3 | h3
      · -- characters of "&#": codes 38 and 35
        rcases List.mem_cons.mp h3 with h4 | h4
        · rw [h4]; exact (by decide)
        · rcases List.mem_cons.mp h4 with h5 | h5
          · rw [h5]; exact (by decide)
          · simp at h5
      · -- decimal digits: codes 48–57
        have := natDecimalGo_digits (c.toNat + 1) c.toNat [] (by intro x hx; simp at hx) c2 h3
        omega
    · -- the ";": code 59
      rcases List.mem_cons.mp h2 with h4 | h4
      · rw [h4]; exact (by decide)
      · simp at h4
  · rw [if_neg hd] at h
    rcases List.mem_cons.mp h with h2 | h2
    · subst h2
      push_neg at hd
      exact ⟨hd.2.1, hd.2.2.1, hd.2.2.2.1, hd.2.2.2.2⟩
    · simp at h2

theorem mem_join_data {l : List String} {c : Char} :
    ∀ {init : String}, c ∈ (l.foldl (· ++ ·) init).data →
      c ∈ init.data ∨ ∃ s ∈ l, c ∈ s.data := by
  induction l with
  | nil => intro init h; exact Or.inl h
  | cons a l ih =>
    intro init h
    rw [List.foldl_cons] at h
    rcases ih h with h2 | ⟨s, hs, hc⟩
    · rw [String.data_append] at h2
      rcases List.mem_append.mp h2 with h3 | h3
      · exact Or.inl h3
      · exact Or.inr ⟨a, List.mem_cons_self _ _, h3⟩
    · exact Or.inr ⟨s, List.mem_cons_of_mem _ hs, hc⟩

theorem escapeHTML_safe (s : String) (c : Char) (h : c ∈ (escapeHTML s).data) :
    c.toNat ≠ 60 ∧ c.toNat ≠ 62 ∧ c.toNat ≠ 34 ∧ c.toNat ≠ 39 := by
  rw [escapeHTML, String.join] at h
  rcases mem_join_data h with h2 | ⟨t, ht, hc⟩
  · simp [String.data] at h2
  · obtain ⟨c0, _, hf⟩ := List.mem_map.mp ht
    exact escapeChar_safe c0 c (by rw [hf]; exact hc)

/-- C10.  `wrapDocument` passes the lang attribute, the title text and both
theme-color values through `escapeHTML` (the document template below is the
source template verbatim, with those four interpolations escaped), and
`escapeHTML` replaces every occurrence of `& < > " '` (codes 38, 60, 62, 34,
39) by its numeric character reference `&#code;`, so its output — hence any
meta-derived text in the document — contains no `<`, `>`, `"` or `'`
character at all: no title or lang value can open a tag or break out of its
attribute. -/
theorem claimC10_meta_text_escaped :
    (∀ s c, c ∈ (escapeHTML s).data →
      c.toNat ≠ 60 ∧ c.toNat ≠ 62 ∧ c.toNat ≠ 34 ∧ c.toNat ≠ 39) ∧
    (∀ s, escapeHTML s = String.join (s.data.map escapeChar)) ∧
    (∀ c, (c.toNat = 38 ∨ c.toNat = 60 ∨ c.toNat = 62 ∨ c.toNat = 34 ∨ c.toNat = 39) →
      escapeChar c = "&#" ++ natDecimal c.toNat ++ ";") ∧
    (∀ renderHead body meta scripts cssLinks,
      wrapDocument renderHead body meta scripts cssLinks =
        "<!DOCTYPE html><html lang=\"" ++ escapeHTML (meta.lang.getD "en") ++
          "\"><head><meta charset=\"utf-8\"><meta name=\"viewport\" content=\"width=device-width\"><meta name=\"color-scheme\" content=\"dark light\">" ++
          ("<meta name=\"theme-color\" media=\"(prefers-color-scheme: light)\" content=\"" ++
            escapeHTML (themeColorLightOf meta.themeColor) ++
            "\"><meta name=\"theme-color\" media=\"(prefers-color-scheme: dark)\" content=\"" ++
            escapeHTML (themeColorDarkOf meta.themeColor) ++ "\">") ++
          themeBootstrap ++
          (match meta.title with
            | some t => if t = "" then "" else "<title>" ++ escapeHTML t ++ "</title>"
            | none => "") ++
          cssLinks ++
          (match meta.head with
            | some h => renderHead h
            | none => "") ++
          "</head><body>" ++ body ++ scripts ++ "</body></html>") := by
  refine ⟨escapeHTML_safe, fun s => rfl, ?_, ?_⟩
  · intro c hd
    rw [escapeChar, if_pos hd]
  · intro renderHead body meta scripts cssLinks
    rfl

/-- Witness for C10 at a concrete dangerous character and a concrete escaped
string. -/
theorem claimC10_witness :
    ((Char.ofNat 97).toNat ≠ 60 ∧ (Char.ofNat 97).toNat ≠ 62 ∧
      (Char.ofNat 97).toNat ≠ 34 ∧ (Char.ofNat 97).toNat ≠ 39) ∧
    escapeChar (Char.ofNat 60) = "&#" ++ natDecimal (Char.ofNat 60).toNat ++ ";" :=
  ⟨claimC10_meta_text_escaped.1 "a<b" (Char.ofNat 97) (by decide),
    claimC10_meta_text_escaped.2.2.1 (Char.ofNat 60) (by decide)⟩

/-! ### C8: build mutual exclusion and single queued follow-up -/

theorem watchStep_active_inv (s : WatchSt) (e : WatchEv)
    (h : s.active = if s.building then 1 else 0) :
    (watchStep s e).active = if (watchStep s e).building then 1 else 0 := by
  cases e with
  | fsChange => simpa [watchStep] using h
  | timerFire =>
    by_cases ht : s.timerOn = true
    · by_cases hb : s.building = true
      · simp [watchStep, ht, hb] at h ⊢; omega
      · simp [watchStep, ht, hb] at h ⊢; omega
    · simpa [watchStep, ht] using h
  | buildDone =>
    by_cases hb : s.building = true
    · by_cases hq : s.queued = true
      · simp [watchStep, hb, hq] at h ⊢; omega
      · simp [watchStep, hb, hq] at h ⊢; omega
    · simpa [watchStep, hb] using h

theorem watchRun_active_inv (evs : List WatchEv) :
    ∀ s : WatchSt, s.active = (if s.building then 1 else 0) →
      (watchRun s evs).active = if (watchRun s evs).building then 1 else 0 := by
  induction evs with
  | nil => intro s h; exact h
  | cons e evs ih =>
    intro s h
    rw [watchRun, List.foldl_cons]
    exact ih _ (watchStep_active_inv s e h)

theorem watchRun_burst (k : Nat) :
    ∀ s : WatchSt, s.building = true →
      watchRun s (trigBurst (k + 1)) = { s with timerOn := false, queued := true } := by
  induction k with
  | zero =>
    intro s hb
    rw [trigBurst, trigBurst]
    rw [watchRun]
    simp only [List.foldl, List.append_nil]
    rw [watchStep]
    rw [show watchStep { s with timerOn := true } .timerFire =
      { s with timerOn := false, queued := true } from by
        rw [watchStep]
        simp [hb]]
  | succ k ih =>
    intro s hb
    rw [show trigBurst (k + 1 + 1) = [.fsChange, .timerFire] ++ trigBurst (k + 1) from rfl]
    rw [watchRun, List.foldl_append]
    have h1 : List.foldl watchStep s [WatchEv.fsChange, WatchEv.timerFire] =
        { s with timerOn := false, queued := true } := by
      simp only [List.foldl]
      rw [watchStep]
      rw [watchStep]
      simp [hb]
    rw [h1]
    exact ih { s with timerOn := false, queued := true } hb

/-- C8.  The trigger discipline of `watchMode`/`serve --hot`: (1) from the
initial state, after any event sequence at most one build is in flight;
(2) a debounce fire while a build is in flight starts nothing — it only sets
`queued` and leaves the started-build count unchanged; (3) from any in-flight
state, any number `k+1 ≥ 1` of triggers during the build starts no build, and
once the in-flight build finishes, exactly one follow-up build is started
(the started count rises by exactly one), regardless of `k`. -/
theorem claimC8_build_mutex_and_single_followup :
    (∀ evs, (watchRun watchInit evs).active ≤ 1) ∧
    (∀ s : WatchSt, s.timerOn = true → s.building = true →
      watchStep s .timerFire = { s with timerOn := false, queued := true } ∧
      (watchStep s .timerFire).started = s.started) ∧
    (∀ (s : WatchSt) (k : Nat), s.building = true →
      (watchRun s (trigBurst (k + 1))).started = s.started ∧
      (watchRun s (trigBurst (k + 1))).building = true ∧
      (watchRun s (trigBurst (k + 1) ++ [.buildDone, .timerFire])).started =
        s.started + 1 ∧
      (watchRun s (trigBurst (k + 1) ++ [.buildDone, .timerFire])).building = true) := by
  refine ⟨?_, ?_, ?_⟩
  · intro evs
    have h := watchRun_active_inv evs watchInit rfl
    rw [h]
    by_cases hb : (watchRun watchInit evs).building = true <;> simp [hb]
  · intro s ht hb
    constructor
    · rw [watchStep]; simp [ht, hb]
    · rw [watchStep]; simp [ht, hb]
  · intro s k hb
    have h1 := watchRun_burst k s hb
    have h1f := h1
    rw [watchRun] at h1f
    refine ⟨by rw [h1], by rw [h1]; exact hb, ?_, ?_⟩
    · rw [watchRun, List.foldl_append, h1f]
      simp only [List.foldl]
      rw [watchStep]
      simp only [hb, if_pos]
      rw [watchStep]
      simp [hb]
    · rw [watchRun, List.foldl_append, h1f]
      simp only [List.foldl]
      rw [watchStep]
      simp only [hb, if_pos]
      rw [watchStep]
      simp [hb]

/-- Witness for C8 at a concrete in-flight state and three triggers. -/
theorem claimC8_witness :
    (watchRun ⟨true, false, false, 5, 1⟩ (trigBurst 3)).started = 5 ∧
    (watchRun ⟨true, false, false, 5, 1⟩ (trigBurst 3)).building = true ∧
    (watchRun ⟨true, false, false, 5, 1⟩ (trigBurst 3 ++ [.buildDone, .timerFire])).started = 6 ∧
    (watchRun ⟨true, false, false, 5, 1⟩ (trigBurst 3 ++ [.buildDone, .timerFire])).building = true :=
  claimC8_build_mutex_and_single_followup.2.2 ⟨true, false, false, 5, 1⟩ 2 rfl

/-! ### C9: dev-server path traversal guard -/

theorem isPrefixOf_append (l t : List String) : l.isPrefixOf (l ++ t) = true := by
  induction l with
  | nil => simp
  | cons a l ih => simp [List.isPrefixOf_cons₂, ih]

/-- C9.  For every request URL: once the handler has stripped query/fragment,
percent-decoded the path and resolved it against the output root
(`resolvedTarget`), if the result is neither the root itself nor strictly
inside it (root-is-prefix), the handler answers 403 Forbidden and serves no
file bytes. -/
theorem claimC9_traversal_guard (env : ServeEnv) (url : String) (fileComps : List String)
    (hres : resolvedTarget env.outRoot url = some fileComps)
    (hesc : fileComps ≠ env.outRoot ∧
      ¬(env.outRoot.isPrefixOf fileComps = true ∧ fileComps ≠ env.outRoot)) :
    handleRequest env url = .forbidden ∧
    servedFileBytes (handleRequest env url) = none := by
  by_cases hl : url = LIVE_RELOAD_PATH
  · exfalso
    subst hl
    rw [resolvedTarget] at hres
    rw [show percentDecode (stripQueryFragment LIVE_RELOAD_PATH) = some LIVE_RELOAD_PATH
      from by decide] at hres
    dsimp only at hres
    rw [if_neg (by decide : ¬LIVE_RELOAD_PATH = "/")] at hres
    rw [show dropLeadingSlashes LIVE_RELOAD_PATH = "__fleax_live" from by decide] at hres
    rw [show resolveComps env.outRoot "__fleax_live" = env.outRoot ++ ["__fleax_live"] from by
      rw [resolveComps]
      rw [show strSplitOn "__fleax_live" "/" = ["__fleax_live"] from by decide]
      rw [List.foldl_cons, List.foldl_nil]
      rw [normStep]
      rw [if_neg (by decide), if_neg (by decide)]] at hres
    injection hres with hres
    exact hesc.2 ⟨by rw [← hres]; exact isPrefixOf_append _ _, hesc.1⟩
  · rw [resolvedTarget] at hres
    cases hp : percentDecode (stripQueryFragment url) with
    | none => rw [hp] at hres; exact absurd hres (by simp)
    | some p0 =>
      rw [hp] at hres
      simp only [] at hres
      injection hres with hres
      rw [handleRequest, if_neg hl, hp]
      simp only []
      rw [hres]
      rw [if_pos hesc]
      exact ⟨rfl, rfl⟩

/-- Witness for C9: `/../secret` against root `/home/dist` resolves to
`/home/secret`, which escapes the root and is answered 403 with no bytes. -/
theorem claimC9_witness :
    handleRequest ⟨["home", "dist"], [], []⟩ "/../secret" = .forbidden ∧
    servedFileBytes (handleRequest ⟨["home", "dist"], [], []⟩ "/../secret") = none :=
  claimC9_traversal_guard ⟨["home", "dist"], [], []⟩ "/../secret" ["home", "secret"]
    (by decide) (by decide)

/-! ### Island-builder step and fold lemmas -/

theorem bool_eq_false {b : Bool} (h : ¬b = true) : b = false := by
  cases b
  · rfl
  · exact absurd rfl h

theorem islandStep_missing (E : Ext) (srcFs : FS)
    (prevIslands : List (String × IslandRecord)) (outDir : String)
    (io : IslandsOut) (entry : String × IslandEntry)
    (h : fsExists srcFs (E.resolveIslandSrc entry.1) = false) :
    islandStep E srcFs prevIslands outDir io entry =
      { io with changed := jsAdd io.changed entry.1 } := by
  rw [islandStep]
  rw [if_pos (by rw [h]; simp)]

theorem islandCanReuse_elim {E : Ext} {srcFs outFs : FS} {outDir : String}
    {prev : Option IslandRecord}
    (h : islandCanReuse E srcFs outFs outDir prev = true) :
    ∃ r snap, prev = some r ∧ r.depHashes = some snap ∧
      depHashesEqual snap (rehashSnapshot E srcFs snap) = true ∧
      outputExistsForUrl outFs outDir r.jsPath = true ∧
      (optFalsy r.cssPath = true ∨ outputExistsForUrl outFs outDir r.cssPath = true) := by
  cases hp : prev with
  | none => rw [hp, islandCanReuse] at h; simp at h
  | some r =>
    cases hd : r.depHashes with
    | none => rw [hp, islandCanReuse, hd] at h; simp at h
    | some snap =>
      rw [hp, islandCanReuse, hd, Bool.and_eq_true, Bool.and_eq_true, Bool.or_eq_true] at h
      exact ⟨r, snap, rfl, hd, h.1.1, h.1.2, h.2⟩

theorem islandStep_reuse_eq (E : Ext) (srcFs : FS)
    (prevIslands : List (String × IslandRecord)) (outDir : String)
    (io : IslandsOut) (entry : String × IslandEntry) (r : IslandRecord)
    (hex : fsExists srcFs (E.resolveIslandSrc entry.1) = true)
    (hprev : jget prevIslands entry.1 = some r)
    (hcr : islandCanReuse E srcFs io.bst.outFs outDir (jget prevIslands entry.1) = true) :
    islandStep E srcFs prevIslands outDir io entry =
      { io with
        paths := (match r.jsPath with
          | some j => jset io.paths entry.1 j
          | none => io.paths),
        css := (match r.cssPath with
          | some c => if c = "" then io.css else jset io.css entry.1 c
          | none => io.css),
        cache := jset io.cache entry.1 r } := by
  rw [islandStep]
  rw [if_neg (not_not_intro hex)]
  rw [hprev] at hcr ⊢
  rw [if_pos hcr]

theorem islandStep_rebuild_proj (E : Ext) (srcFs : FS)
    (prevIslands : List (String × IslandRecord)) (outDir : String)
    (io : IslandsOut) (entry : String × IslandEntry)
    (hex : fsExists srcFs (E.resolveIslandSrc entry.1) = true)
    (hcr : islandCanReuse E srcFs io.bst.outFs outDir (jget prevIslands entry.1) = false) :
    (islandStep E srcFs prevIslands outDir io entry).compiled = io.compiled ++ [entry.1] ∧
    (∃ r, (islandStep E srcFs prevIslands outDir io entry).cache = jset io.cache entry.1 r) ∧
    (∃ u, (islandStep E srcFs prevIslands outDir io entry).paths =
      jset io.paths entry.1 u) ∧
    (islandStep E srcFs prevIslands outDir io entry).changed = jsAdd io.changed entry.1 := by
  rw [islandStep]
  rw [if_neg (not_not_intro hex)]
  rw [if_neg (by rw [hcr]; simp)]
  exact ⟨rfl, ⟨_, rfl⟩, ⟨_, rfl⟩, rfl⟩

theorem islandStep_cache_shape (E : Ext) (srcFs : FS)
    (prevIslands : List (String × IslandRecord)) (outDir : String)
    (io : IslandsOut) (entry : String × IslandEntry) :
    (islandStep E srcFs prevIslands outDir io entry).cache = io.cache ∨
    ∃ r, (islandStep E srcFs prevIslands outDir io entry).cache =
      jset io.cache entry.1 r := by
  by_cases hex : fsExists srcFs (E.resolveIslandSrc entry.1) = true
  · by_cases hcr : islandCanReuse E srcFs io.bst.outFs outDir (jget prevIslands entry.1) = true
    · obtain ⟨r, snap, hprev, _⟩ := islandCanReuse_elim hcr
      right
      rw [islandStep_reuse_eq E srcFs prevIslands outDir io entry r hex hprev hcr]
      exact ⟨r, rfl⟩
    · exact Or.inr (islandStep_rebuild_proj E srcFs prevIslands outDir io entry hex
        (bool_eq_false hcr)).2.1
  · rw [islandStep_missing E srcFs prevIslands outDir io entry
      (bool_eq_false hex)]
    exact Or.inl rfl

theorem islandStep_cache_exists (E : Ext) (srcFs : FS)
    (prevIslands : List (String × IslandRecord)) (outDir : String)
    (io : IslandsOut) (entry : String × IslandEntry)
    (hex : fsExists srcFs (E.resolveIslandSrc entry.1) = true) :
    ∃ r, (islandStep E srcFs prevIslands outDir io entry).cache =
      jset io.cache entry.1 r := by
  by_cases hcr : islandCanReuse E srcFs io.bst.outFs outDir (jget prevIslands entry.1) = true
  · obtain ⟨r, snap, hprev, _⟩ := islandCanReuse_elim hcr
    rw [islandStep_reuse_eq E srcFs prevIslands outDir io entry r hex hprev hcr]
    exact ⟨r, rfl⟩
  · exact (islandStep_rebuild_proj E srcFs prevIslands outDir io entry hex
      (bool_eq_false hcr)).2.1

theorem islandStep_paths_shape (E : Ext) (srcFs : FS)
    (prevIslands : List (String × IslandRecord)) (outDir : String)
    (io : IslandsOut) (entry : String × IslandEntry) :
    (islandStep E srcFs prevIslands outDir io entry).paths = io.paths ∨
    ∃ u, (islandStep E srcFs prevIslands outDir io entry).paths =
      jset io.paths entry.1 u := by
  by_cases hex : fsExists srcFs (E.resolveIslandSrc entry.1) = true
  · by_cases hcr : islandCanReuse E srcFs io.bst.outFs outDir (jget prevIslands entry.1) = true
    · obtain ⟨r, snap, hprev, _, _, hjs, _⟩ := islandCanReuse_elim hcr
      rw [islandStep_reuse_eq E srcFs prevIslands outDir io entry r hex hprev hcr]
      cases hj : r.jsPath with
      | none => rw [hj] at hjs; simp [outputExistsForUrl] at hjs
      | some j => exact Or.inr ⟨j, rfl⟩
    · exact Or.inr (islandStep_rebuild_proj E srcFs prevIslands outDir io entry hex
        (bool_eq_false hcr)).2.2.1
  · rw [islandStep_missing E srcFs prevIslands outDir io entry
      (bool_eq_false hex)]
    exact Or.inl rfl

theorem islandStep_paths_exists (E : Ext) (srcFs : FS)
    (prevIslands : List (String × IslandRecord)) (outDir : String)
    (io : IslandsOut) (entry : String × IslandEntry)
    (hex : fsExists srcFs (E.resolveIslandSrc entry.1) = true) :
    ∃ u, (islandStep E srcFs prevIslands outDir io entry).paths =
      jset io.paths entry.1 u := by
  by_cases hcr : islandCanReuse E srcFs io.bst.outFs outDir (jget prevIslands entry.1) = true
  · obtain ⟨r, snap, hprev, _, _, hjs, _⟩ := islandCanReuse_elim hcr
    rw [islandStep_reuse_eq E srcFs prevIslands outDir io entry r hex hprev hcr]
    cases hj : r.jsPath with
    | none => rw [hj] at hjs; simp [outputExistsForUrl] at hjs
    | some j => exact ⟨j, rfl⟩
  · exact (islandStep_rebuild_proj E srcFs prevIslands outDir io entry hex
      (bool_eq_false hcr)).2.2.1

theorem islandStep_compiled_shape (E : Ext) (srcFs : FS)
    (prevIslands : List (String × IslandRecord)) (outDir : String)
    (io : IslandsOut) (entry : String × IslandEntry) :
    (islandStep E srcFs prevIslands outDir io entry).compiled = io.compiled ∨
    (islandStep E srcFs prevIslands outDir io entry).compiled =
      io.compiled ++ [entry.1] := by
  by_cases hex : fsExists srcFs (E.resolveIslandSrc entry.1) = true
  · by_cases hcr : islandCanReuse E srcFs io.bst.outFs outDir (jget prevIslands entry.1) = true
    · obtain ⟨r, snap, hprev, _⟩ := islandCanReuse_elim hcr
      rw [islandStep_reuse_eq E srcFs prevIslands outDir io entry r hex hprev hcr]
      exact Or.inl rfl
    · exact Or.inr (islandStep_rebuild_proj E srcFs prevIslands outDir io entry hex
        (bool_eq_false hcr)).1
  · rw [islandStep_missing E srcFs prevIslands outDir io entry
      (bool_eq_false hex)]
    exact Or.inl rfl

theorem removeOutputForUrl_dels_mono (outFs : FS) (dels : List String) (outDir : String)
    (u : Option String) (x : String) (h : x ∈ dels) :
    x ∈ (removeOutputForUrl outFs dels outDir u).2 := by
  cases u with
  | none => exact h
  | some url =>
    simp only [removeOutputForUrl]
    by_cases h1 : url = ""
    · rw [if_pos h1]; exact h
    · rw [if_neg h1]
      by_cases h2 : fsExists outFs (urlDiskPath outDir url) = true
      · rw [if_pos h2]; exact List.mem_append_left _ h
      · rw [if_neg h2]; exact h

theorem orphanCleanup_dels_mono (prev : Option IslandRecord) (jsUrl : String)
    (cssUrl : Option String) (fs : FS) (dels : List String) (outDir : String)
    (x : String) (h : x ∈ dels) :
    x ∈ (orphanCleanup prev jsUrl cssUrl fs dels outDir).2 := by
  cases prev with
  | none => exact h
  | some r =>
    simp only [orphanCleanup]
    by_cases hc : r.jsPath ≠ some jsUrl ∨ r.cssPath ≠ cssUrl
    · rw [if_pos hc]
      exact removeOutputForUrl_dels_mono _ _ _ _ _
        (removeOutputForUrl_dels_mono _ _ _ _ _ h)
    · rw [if_neg hc]; exact h

theorem buildIslandsFold_cache_mono (E : Ext) (srcFs : FS)
    (prevIslands : List (String × IslandRecord)) (outDir : String) :
    ∀ (l : List (String × IslandEntry)) (io : IslandsOut) (s : String),
      s ∈ keysOf io.cache →
      s ∈ keysOf (l.foldl (islandStep E srcFs prevIslands outDir) io).cache := by
  intro l
  induction l with
  | nil => intro io s h; exact h
  | cons a l ih =>
    intro io s h
    rw [List.foldl_cons]
    refine ih _ s ?_
    rcases islandStep_cache_shape E srcFs prevIslands outDir io a with h2 | ⟨r, h2⟩
    · rw [h2]; exact h
    · rw [h2]; exact mem_keysOf_jset_of_mem _ _ h

theorem buildIslandsFold_cache_covers (E : Ext) (srcFs : FS)
    (prevIslands : List (String × IslandRecord)) (outDir : String) :
    ∀ (l : List (String × IslandEntry)) (io : IslandsOut) (e : String × IslandEntry),
      e ∈ l → fsExists srcFs (E.resolveIslandSrc e.1) = true →
      e.1 ∈ keysOf (l.foldl (islandStep E srcFs prevIslands outDir) io).cache := by
  intro l
  induction l with
  | nil => intro io e h; exact absurd h (List.not_mem_nil e)
  | cons a l ih =>
    intro io e hmem hex
    rw [List.foldl_cons]
    rcases List.mem_cons.mp hmem with h | h
    · subst h
      obtain ⟨r, hr⟩ := islandStep_cache_exists E srcFs prevIslands outDir io e hex
      refine buildIslandsFold_cache_mono E srcFs prevIslands outDir l _ e.1 ?_
      rw [hr]
      exact mem_keysOf_jset_self _ _ _
    · exact ih _ e h hex

theorem buildIslandsFold_cache_sub (E : Ext) (srcFs : FS)
    (prevIslands : List (String × IslandRecord)) (outDir : String) :
    ∀ (l : List (String × IslandEntry)) (io : IslandsOut) (s : String),
      s ∈ keysOf (l.foldl (islandStep E srcFs prevIslands outDir) io).cache →
      s ∈ keysOf io.cache ∨ s ∈ keysOf l := by
  intro l
  induction l with
  | nil => intro io s h; exact Or.inl h
  | cons a l ih =>
    intro io s h
    rw [List.foldl_cons] at h
    rcases ih _ s h with h2 | h2
    · rcases islandStep_cache_shape E srcFs prevIslands outDir io a with h3 | ⟨r, h3⟩
      · rw [h3] at h2; exact Or.inl h2
      · rw [h3] at h2
        rcases mem_keysOf_of_mem_jset h2 with h4 | h4
        · exact Or.inl h4
        · exact Or.inr (by rw [h4]; exact List.mem_map.mpr ⟨a, List.mem_cons_self _ _, rfl⟩)
    · exact Or.inr (List.mem_cons_of_mem _ (by exact h2))

theorem buildIslandsFold_cache_nodup (E : Ext) (srcFs : FS)
    (prevIslands : List (String × IslandRecord)) (outDir : String) :
    ∀ (l : List (String × IslandEntry)) (io : IslandsOut),
      (keysOf io.cache).Nodup →
      (keysOf (l.foldl (islandStep E srcFs prevIslands outDir) io).cache).Nodup := by
  intro l
  induction l with
  | nil => intro io h; exact h
  | cons a l ih =>
    intro io h
    rw [List.foldl_cons]
    refine ih _ ?_
    rcases islandStep_cache_shape E srcFs prevIslands outDir io a with h2 | ⟨r, h2⟩
    · rw [h2]; exact h
    · rw [h2]; exact nodup_keysOf_jset h _ _

theorem buildIslandsFold_paths_mono (E : Ext) (srcFs : FS)
    (prevIslands : List (String × IslandRecord)) (outDir : String) :
    ∀ (l : List (String × IslandEntry)) (io : IslandsOut) (s : String),
      s ∈ keysOf io.paths →
      s ∈ keysOf (l.foldl (islandStep E srcFs prevIslands outDir) io).paths := by
  intro l
  induction l with
  | nil => intro io s h; exact h
  | cons a l ih =>
    intro io s h
    rw [List.foldl_cons]
    refine ih _ s ?_
    rcases islandStep_paths_shape E srcFs prevIslands outDir io a with h2 | ⟨u, h2⟩
    · rw [h2]; exact h
    · rw [h2]; exact mem_keysOf_jset_of_mem _ _ h

theorem buildIslandsFold_paths_covers (E : Ext) (srcFs : FS)
    (prevIslands : List (String × IslandRecord)) (outDir : String) :
    ∀ (l : List (String × IslandEntry)) (io : IslandsOut) (e : String × IslandEntry),
      e ∈ l → fsExists srcFs (E.resolveIslandSrc e.1) = true →
      e.1 ∈ keysOf (l.foldl (islandStep E srcFs prevIslands outDir) io).paths := by
  intro l
  induction l with
  | nil => intro io e h; exact absurd h (List.not_mem_nil e)
  | cons a l ih =>
    intro io e hmem hex
    rw [List.foldl_cons]
    rcases List.mem_cons.mp hmem with h | h
    · subst h
      obtain ⟨u, hu⟩ := islandStep_paths_exists E srcFs prevIslands outDir io e hex
      refine buildIslandsFold_paths_mono E srcFs prevIslands outDir l _ e.1 ?_
      rw [hu]
      exact mem_keysOf_jset_self _ _ _
    · exact ih _ e h hex

theorem buildIslandsFold_compiled_absent (E : Ext) (srcFs : FS)
    (prevIslands : List (String × IslandRecord)) (outDir : String) :
    ∀ (l : List (String × IslandEntry)) (io : IslandsOut) (s : String),
      ¬s ∈ keysOf l →
      ((l.foldl (islandStep E srcFs prevIslands outDir) io).compiled.count s =
        io.compiled.count s) := by
  intro l
  induction l with
  | nil => intro io s _; rfl
  | cons a l ih =>
    intro io s h
    have hs : ¬s ∈ keysOf l := fun h2 => h (List.mem_cons_of_mem _ h2)
    have ha : a.1 ≠ s := by
      intro h2
      exact h (by rw [← h2]; exact List.mem_map.mpr ⟨a, List.mem_cons_self _ _, rfl⟩)
    rw [List.foldl_cons, ih _ s hs]
    rcases islandStep_compiled_shape E srcFs prevIslands outDir io a with h2 | h2
    · rw [h2]
    · rw [h2, List.count_append]
      simp [List.count_singleton, ha]

theorem buildIslandsFold_compiled_count (E : Ext) (srcFs : FS)
    (prevIslands : List (String × IslandRecord)) (outDir : String) :
    ∀ (l : List (String × IslandEntry)) (io : IslandsOut) (s : String),
      (keysOf l).Nodup →
      ((l.foldl (islandStep E srcFs prevIslands outDir) io).compiled.count s ≤
        io.compiled.count s + 1) := by
  intro l
  induction l with
  | nil => intro io s _; exact Nat.le_succ _
  | cons a l ih =>
    intro io s hnd
    simp only [keysOf, List.map_cons, List.nodup_cons] at hnd
    rw [List.foldl_cons]
    by_cases hsa : a.1 = s
    · subst hsa
      rw [buildIslandsFold_compiled_absent E srcFs prevIslands outDir l _ a.1 hnd.1]
      rcases islandStep_compiled_shape E srcFs prevIslands outDir io a with h2 | h2
      · rw [h2]; exact Nat.le_succ _
      · rw [h2, List.count_append]
        simp [List.count_singleton]
    · refine le_trans (ih _ s hnd.2) ?_
      rcases islandStep_compiled_shape E srcFs prevIslands outDir io a with h2 | h2
      · rw [h2]
      · rw [h2, List.count_append]
        simp [List.count_singleton, Ne.symm hsa]

theorem buildIslandsFold_dels_mono (E : Ext) (srcFs : FS)
    (prevIslands : List (String × IslandRecord)) (outDir : String) :
    ∀ (l : List (String × IslandEntry)) (io : IslandsOut) (x : String),
      x ∈ io.bst.deletions →
      x ∈ (l.foldl (islandStep E srcFs prevIslands outDir) io).bst.deletions := by
  intro l
  induction l with
  | nil => intro io x h; exact h
  | cons a l ih =>
    intro io x h
    rw [List.foldl_cons]
    refine ih _ x ?_
    by_cases hex : fsExists srcFs (E.resolveIslandSrc a.1) = true
    · by_cases hcr : islandCanReuse E srcFs io.bst.outFs outDir (jget prevIslands a.1) = true
      · obtain ⟨r, snap, hprev, _⟩ := islandCanReuse_elim hcr
        rw [islandStep_reuse_eq E srcFs prevIslands outDir io a r hex hprev hcr]
        exact h
      · rw [islandStep]
        rw [if_neg (not_not_intro hex)]
        rw [if_neg (by rw [bool_eq_false hcr]; simp)]
        -- the rebuild branch's deletions extend the previous ones
        -- via removeOutputForUrl, which only appends
        exact orphanCleanup_dels_mono _ _ _ _ _ _ x h
    · rw [islandStep_missing E srcFs prevIslands outDir io a (bool_eq_false hex)]
      exact h

/-! ### Classification lemmas -/

theorem mem_keys_entriesFold {l : List (String × IslandEntry)}
    {m : List (String × IslandEntry)} {s : String} (h : s ∈ keysOf m) :
    s ∈ keysOf (l.foldl (fun m e => jset m e.1 e.2) m) := by
  induction l generalizing m with
  | nil => exact h
  | cons a l ih =>
    rw [List.foldl_cons]
    exact ih (mem_keysOf_jset_of_mem _ _ h)

theorem mem_keys_entriesFold_self {l : List (String × IslandEntry)}
    {m : List (String × IslandEntry)} {e : String × IslandEntry} (h : e ∈ l) :
    e.1 ∈ keysOf (l.foldl (fun m e => jset m e.1 e.2) m) := by
  induction l generalizing m with
  | nil => exact absurd h (List.not_mem_nil e)
  | cons a l ih =>
    rw [List.foldl_cons]
    rcases List.mem_cons.mp h with h2 | h2
    · subst h2
      exact mem_keys_entriesFold (mem_keysOf_jset_self _ _ _)
    · exact ih h2

theorem nodup_keys_entriesFold {l : List (String × IslandEntry)}
    {m : List (String × IslandEntry)} (h : (keysOf m).Nodup) :
    (keysOf (l.foldl (fun m e => jset m e.1 e.2) m)).Nodup := by
  induction l generalizing m with
  | nil => exact h
  | cons a l ih =>
    rw [List.foldl_cons]
    exact ih (nodup_keysOf_jset h _ _)

theorem mem_keys_sourcesFold {l : List String}
    {m : List (String × IslandEntry)} {s : String} (h : s ∈ keysOf m) :
    s ∈ keysOf (l.foldl
      (fun (m : List (String × IslandEntry)) s => jset m s ⟨s, s⟩) m) := by
  induction l generalizing m with
  | nil => exact h
  | cons a l ih =>
    rw [List.foldl_cons]
    exact ih (mem_keysOf_jset_of_mem _ _ h)

theorem mem_keys_sourcesFold_self {l : List String}
    {m : List (String × IslandEntry)} {s : String} (h : s ∈ l) :
    s ∈ keysOf (l.foldl
      (fun (m : List (String × IslandEntry)) s => jset m s ⟨s, s⟩) m) := by
  induction l generalizing m with
  | nil => exact absurd h (List.not_mem_nil s)
  | cons a l ih =>
    rw [List.foldl_cons]
    rcases List.mem_cons.mp h with h2 | h2
    · subst h2
      exact mem_keys_sourcesFold (mem_keysOf_jset_self _ _ _)
    · exact ih h2

theorem nodup_keys_sourcesFold {l : List String}
    {m : List (String × IslandEntry)} (h : (keysOf m).Nodup) :
    (keysOf (l.foldl
      (fun (m : List (String × IslandEntry)) s => jset m s ⟨s, s⟩) m)).Nodup := by
  induction l generalizing m with
  | nil => exact h
  | cons a l ih =>
    rw [List.foldl_cons]
    exact ih (nodup_keysOf_jset h _ _)

theorem pageSourceChanged_none (E : Ext) (srcFs : FS) :
    pageSourceChanged E srcFs none = true := rfl

/-- Case analysis for one classification step. -/
theorem classifyStep_shape (E : Ext) (srcFs : FS)
    (prevPages : List (String × PageRecord)) (co : ClassifyOut) (pagePath : String) :
    (pageSourceChanged E srcFs (jget prevPages pagePath) = true ∧
      ((renderPage E srcFs pagePath = none ∧
          classifyStep E srcFs prevPages co pagePath = co) ∨
        ∃ page, renderPage E srcFs pagePath = some page ∧
          classifyStep E srcFs prevPages co pagePath =
            { co with
              renderedPages := jset co.renderedPages pagePath page,
              islandsByPage := jset co.islandsByPage pagePath (keysOf page.islands),
              allIslands := page.islands.foldl (fun m e => jset m e.1 e.2) co.allIslands })) ∨
    (pageSourceChanged E srcFs (jget prevPages pagePath) = false ∧
      ∃ pr, jget prevPages pagePath = some pr ∧
        classifyStep E srcFs prevPages co pagePath =
          { co with
            islandsByPage := jset co.islandsByPage pagePath pr.islandSources,
            unchanged := co.unchanged ++ [pagePath],
            allIslands := pr.islandSources.foldl
              (fun (m : List (String × IslandEntry)) s => jset m s ⟨s, s⟩)
              co.allIslands }) := by
  by_cases hch : pageSourceChanged E srcFs (jget prevPages pagePath) = true
  · left
    refine ⟨hch, ?_⟩
    cases hr : renderPage E srcFs pagePath with
    | none =>
      left
      refine ⟨rfl, ?_⟩
      rw [classifyStep]
      rw [if_pos hch, hr]
    | some page =>
      right
      refine ⟨page, rfl, ?_⟩
      rw [classifyStep]
      rw [if_pos hch, hr]
  · right
    refine ⟨bool_eq_false hch, ?_⟩
    cases hp : jget prevPages pagePath with
    | none => exact absurd (hp ▸ pageSourceChanged_none E srcFs) hch
    | some pr =>
      refine ⟨pr, rfl, ?_⟩
      rw [classifyStep]
      rw [if_neg (by rw [hp] at hch ⊢; exact hch), hp]
      rfl

theorem classifyStep_allIslands_mono (E : Ext) (srcFs : FS)
    (prevPages : List (String × PageRecord)) (co : ClassifyOut) (pagePath : String)
    {s : String} (h : s ∈ keysOf co.allIslands) :
    s ∈ keysOf (classifyStep E srcFs prevPages co pagePath).allIslands := by
  rcases classifyStep_shape E srcFs prevPages co pagePath with
    ⟨_, ⟨_, heq⟩ | ⟨page, _, heq⟩⟩ | ⟨_, pr, _, heq⟩
  · rw [heq]; exact h
  · rw [heq]; exact mem_keys_entriesFold h
  · rw [heq]; exact mem_keys_sourcesFold h

theorem classifyFold_allIslands_mono (E : Ext) (srcFs : FS)
    (prevPages : List (String × PageRecord)) :
    ∀ (l : List String) (co : ClassifyOut) (s : String),
      s ∈ keysOf co.allIslands →
      s ∈ keysOf ((l.foldl (classifyStep E srcFs prevPages) co).allIslands) := by
  intro l
  induction l with
  | nil => intro co s h; exact h
  | cons a l ih =>
    intro co s h
    rw [List.foldl_cons]
    exact ih _ s (classifyStep_allIslands_mono E srcFs prevPages co a h)

theorem classifyStep_inv (E : Ext) (srcFs : FS)
    (prevPages : List (String × PageRecord)) (pageFiles : List String)
    (co : ClassifyOut) (pagePath : String) (hp : pagePath ∈ pageFiles)
    (hinv : ClassInv E srcFs prevPages pageFiles co) :
    ClassInv E srcFs prevPages pageFiles (classifyStep E srcFs prevPages co pagePath) := by
  obtain ⟨hu, hr, hk, hnd⟩ := hinv
  rcases classifyStep_shape E srcFs prevPages co pagePath with
    ⟨_, ⟨_, heq⟩ | ⟨page, hpg, heq⟩⟩ | ⟨_, pr, hprev, heq⟩
  · rw [heq]; exact ⟨hu, hr, hk, hnd⟩
  · rw [heq]
    refine ⟨?_, ?_, ?_, ?_⟩
    · intro p hpu
      obtain ⟨pr, h1, h2, h3⟩ := hu p hpu
      exact ⟨pr, h1, fun s hs => mem_keys_entriesFold (h2 s hs), h3⟩
    · intro p pg hg
      by_cases hpp : pagePath = p
      · subst hpp
        rw [jget_jset_self] at hg
        injection hg with hg
        rw [← hg]
        exact hpg
      · rw [jget_jset_other _ _ _ _ hpp] at hg
        exact hr p pg hg
    · intro p hpk
      rcases mem_keysOf_of_mem_jset hpk with h2 | h2
      · exact hk p h2
      · rw [h2]; exact hp
    · exact nodup_keys_entriesFold hnd
  · rw [heq]
    refine ⟨?_, hr, hk, nodup_keys_sourcesFold hnd⟩
    intro p hpu
    rcases List.mem_append.mp hpu with h2 | h2
    · obtain ⟨pr2, h1, h3, h4⟩ := hu p h2
      exact ⟨pr2, h1, fun s hs => mem_keys_sourcesFold (h3 s hs), h4⟩
    · rw [List.mem_singleton.mp h2]
      exact ⟨pr, hprev, fun s hs => mem_keys_sourcesFold_self hs, hp⟩

theorem classifyFold_inv (E : Ext) (srcFs : FS)
    (prevPages : List (String × PageRecord)) (pageFiles : List String) :
    ∀ (l : List String) (co : ClassifyOut), (∀ x ∈ l, x ∈ pageFiles) →
      ClassInv E srcFs prevPages pageFiles co →
      ClassInv E srcFs prevPages pageFiles (l.foldl (classifyStep E srcFs prevPages) co) := by
  intro l
  induction l with
  | nil => intro co _ h; exact h
  | cons a l ih =>
    intro co hl h
    rw [List.foldl_cons]
    exact ih _ (fun x hx => hl x (List.mem_cons_of_mem _ hx))
      (classifyStep_inv E srcFs prevPages pageFiles co a (hl a (List.mem_cons_self _ _)) h)

theorem classifyPages_inv (E : Ext) (srcFs : FS)
    (prevPages : List (String × PageRecord)) (pageFiles : List String) :
    ClassInv E srcFs prevPages pageFiles (classifyPages E srcFs prevPages pageFiles) := by
  rw [classifyPages]
  refine classifyFold_inv E srcFs prevPages pageFiles pageFiles _ (fun x hx => hx) ?_
  refine ⟨?_, ?_, ?_, ?_⟩
  · intro p hp; exact absurd hp (List.not_mem_nil p)
  · intro p pg hg; exact absurd hg (by rw [jget]; simp)
  · intro p hp; exact absurd hp (List.not_mem_nil p)
  · exact List.nodup_nil

/-- The unchanged list of the classification has no duplicates is not needed;
but membership of `unchanged` in `pageFiles` is extracted here. -/
theorem classifyPages_unchanged_sub (E : Ext) (srcFs : FS)
    (prevPages : List (String × PageRecord)) (pageFiles : List String) :
    ∀ p ∈ (classifyPages E srcFs prevPages pageFiles).unchanged, p ∈ pageFiles := by
  intro p hp
  obtain ⟨pr, _, _, h⟩ := (classifyPages_inv E srcFs prevPages pageFiles).1 p hp
  exact h

/-! ### Promotion and write-loop lemmas -/

theorem promoteStep_snd_shape (outDir : String) (prevPages : List (String × PageRecord))
    (islandsByPage : List (String × List String)) (changed : List String) (outFs : FS)
    (acc : List String × List (String × PageRecord)) (p : String) :
    (promoteStep outDir prevPages islandsByPage changed outFs acc p).2 = acc.2 ∨
    ∃ pr, jget prevPages p = some pr ∧
      (promoteStep outDir prevPages islandsByPage changed outFs acc p).2 =
        jset acc.2 p pr := by
  rw [promoteStep]
  split
  · exact Or.inl rfl
  · cases hp : jget prevPages p with
    | none => exact Or.inl rfl
    | some pr => exact Or.inr ⟨pr, rfl, rfl⟩

theorem promoteStep_fst_shape (outDir : String) (prevPages : List (String × PageRecord))
    (islandsByPage : List (String × List String)) (changed : List String) (outFs : FS)
    (acc : List String × List (String × PageRecord)) (p : String) :
    (promoteStep outDir prevPages islandsByPage changed outFs acc p).1 = acc.1 ∨
    (promoteStep outDir prevPages islandsByPage changed outFs acc p).1 =
      jsAdd acc.1 p := by
  rw [promoteStep]
  split
  · exact Or.inr rfl
  · cases hp : jget prevPages p with
    | none => exact Or.inl rfl
    | some pr => exact Or.inl rfl

theorem promoteFold_snd_elim (outDir : String) (prevPages : List (String × PageRecord))
    (islandsByPage : List (String × List String)) (changed : List String) (outFs : FS) :
    ∀ (l : List String) (acc : List String × List (String × PageRecord))
      (e : String × PageRecord),
      e ∈ (l.foldl (promoteStep outDir prevPages islandsByPage changed outFs) acc).2 →
      e ∈ acc.2 ∨ (e.1 ∈ l ∧ jget prevPages e.1 = some e.2) := by
  intro l
  induction l with
  | nil => intro acc e h; exact Or.inl h
  | cons a l ih =>
    intro acc e h
    rw [List.foldl_cons] at h
    rcases ih _ e h with h2 | h2
    · rcases promoteStep_snd_shape outDir prevPages islandsByPage changed outFs acc a with
        h3 | ⟨pr, hpr, h3⟩
      · rw [h3] at h2; exact Or.inl h2
      · rw [h3] at h2
        rcases mem_jset_elim h2 with h4 | h4
        · exact Or.inl h4
        · subst h4
          exact Or.inr ⟨List.mem_cons_self _ _, hpr⟩
    · exact Or.inr ⟨List.mem_cons_of_mem _ h2.1, h2.2⟩

theorem promoteFold_fst_elim (outDir : String) (prevPages : List (String × PageRecord))
    (islandsByPage : List (String × List String)) (changed : List String) (outFs : FS) :
    ∀ (l : List String) (acc : List String × List (String × PageRecord)) (x : String),
      x ∈ (l.foldl (promoteStep outDir prevPages islandsByPage changed outFs) acc).1 →
      x ∈ acc.1 ∨ x ∈ l := by
  intro l
  induction l with
  | nil => intro acc x h; exact Or.inl h
  | cons a l ih =>
    intro acc x h
    rw [List.foldl_cons] at h
    rcases ih _ x h with h2 | h2
    · rcases promoteStep_fst_shape outDir prevPages islandsByPage changed outFs acc a with
        h3 | h3
      · rw [h3] at h2; exact Or.inl h2
      · rw [h3] at h2
        rcases mem_jsAdd.mp h2 with h4 | h4
        · exact Or.inl h4
        · exact Or.inr (by rw [h4]; exact List.mem_cons_self _ _)
    · exact Or.inr (List.mem_cons_of_mem _ h2)

theorem fetchPage_inv (E : Ext) (srcFs : FS) (rendered : List (String × Page))
    (p : String)
    (hR : ∀ q pg, jget rendered q = some pg → renderPage E srcFs q = some pg) :
    (∀ pg, (fetchPage E srcFs rendered p).2 = some pg →
      renderPage E srcFs p = some pg) ∧
    (∀ q pg, jget (fetchPage E srcFs rendered p).1 q = some pg →
      renderPage E srcFs q = some pg) := by
  rw [fetchPage]
  cases hg : jget rendered p with
  | some pg0 =>
    refine ⟨?_, hR⟩
    intro pg h2
    injection h2 with h2
    rw [← h2]
    exact hR p pg0 hg
  | none =>
    cases hr : renderPage E srcFs p with
    | none => exact ⟨fun pg h2 => by simp at h2, hR⟩
    | some pg0 =>
      constructor
      · intro pg h2
        exact h2
      · intro q pg h2
        by_cases hq : p = q
        · subst hq
          rw [jget_jset_self] at h2
          injection h2 with h2
          rw [← h2]; exact hr
        · rw [jget_jset_other _ _ _ _ hq] at h2
          exact hR q pg h2

theorem pageCssWrite_dels (E : Ext) (outDir : String) (shouldPurge : Bool)
    (classKeep : List String) (bst : BuildSt) (page : Page) (cssLinks0 : String) :
    (pageCssWrite E outDir shouldPurge classKeep bst page cssLinks0).1.deletions =
      bst.deletions := by
  rw [pageCssWrite]
  split <;> rfl

theorem staleCssCleanup_dels_mono (outDir : String) (prevPage : Option PageRecord)
    (cssPathOpt : Option String) (bst : BuildSt) (x : String)
    (h : x ∈ bst.deletions) :
    x ∈ (staleCssCleanup outDir prevPage cssPathOpt bst).2 := by
  simp only [staleCssCleanup]
  split
  · split
    · split
      · exact removeOutputForUrl_dels_mono _ _ _ _ _ h
      · exact h
    · exact h
  · exact h

theorem writePageStep_none (E : Ext) (srcFs : FS) (outDir : String)
    (prevPages : List (String × PageRecord)) (islandPaths islandCss : List (String × String))
    (shouldPurge : Bool) (classKeep : List String) (acc : WriteAcc) (p : String)
    (hf : (fetchPage E srcFs acc.rendered p).2 = none) :
    writePageStep E srcFs outDir prevPages islandPaths islandCss shouldPurge classKeep
        acc p =
      { acc with rendered := (fetchPage E srcFs acc.rendered p).1 } := by
  rw [writePageStep]
  rw [hf]

theorem writePageStep_some_proj (E : Ext) (srcFs : FS) (outDir : String)
    (prevPages : List (String × PageRecord)) (islandPaths islandCss : List (String × String))
    (shouldPurge : Bool) (classKeep : List String) (acc : WriteAcc) (p : String)
    (pg : Page) (hf : (fetchPage E srcFs acc.rendered p).2 = some pg) :
    (∃ rec : PageRecord,
      (writePageStep E srcFs outDir prevPages islandPaths islandCss shouldPurge classKeep
          acc p).nextPages = jset acc.nextPages p rec ∧
      rec.islandSources = keysOf pg.islands) ∧
    ((writePageStep E srcFs outDir prevPages islandPaths islandCss shouldPurge classKeep
        acc p).wiring =
      jset acc.wiring p (pg.islands.map fun e => (e.1, jget islandPaths e.1))) ∧
    ((writePageStep E srcFs outDir prevPages islandPaths islandCss shouldPurge classKeep
        acc p).rendered = (fetchPage E srcFs acc.rendered p).1) ∧
    (∀ x ∈ acc.bst.deletions,
      x ∈ (writePageStep E srcFs outDir prevPages islandPaths islandCss shouldPurge
        classKeep acc p).bst.deletions) := by
  rw [writePageStep]
  rw [hf]
  refine ⟨⟨_, rfl, rfl⟩, rfl, rfl, ?_⟩
  intro x h
  refine staleCssCleanup_dels_mono _ _ _ _ x ?_
  rw [pageCssWrite_dels]
  exact h

theorem writeFold_nextPages_inv (E : Ext) (srcFs : FS) (outDir : String)
    (prevPages : List (String × PageRecord)) (ip ic : List (String × String))
    (sp : Bool) (ck : List String) (K : List String) (pageFiles : List String)
    (H2 : ∀ p ∈ pageFiles, ∀ pg, renderPage E srcFs p = some pg →
      ∀ s ∈ keysOf pg.islands, s ∈ K) :
    ∀ (l : List String) (acc : WriteAcc), (∀ x ∈ l, x ∈ pageFiles) →
      (∀ e ∈ acc.nextPages, ∀ s ∈ (e : String × PageRecord).2.islandSources, s ∈ K) →
      (∀ q pg, jget acc.rendered q = some pg → renderPage E srcFs q = some pg) →
      ∀ e ∈ (l.foldl (writePageStep E srcFs outDir prevPages ip ic sp ck) acc).nextPages,
        ∀ s ∈ (e : String × PageRecord).2.islandSources, s ∈ K := by
  intro l
  induction l with
  | nil => intro acc _ hnp _ e he; exact hnp e he
  | cons a l ih =>
    intro acc hl hnp hR
    rw [List.foldl_cons]
    have hfi := fetchPage_inv E srcFs acc.rendered a hR
    cases hf : (fetchPage E srcFs acc.rendered a).2 with
    | none =>
      rw [writePageStep_none E srcFs outDir prevPages ip ic sp ck acc a hf]
      exact ih _ (fun x hx => hl x (List.mem_cons_of_mem _ hx)) hnp hfi.2
    | some pg =>
      obtain ⟨⟨rec, hrec, hsrc⟩, _, hrend, _⟩ :=
        writePageStep_some_proj E srcFs outDir prevPages ip ic sp ck acc a pg hf
      refine ih _ (fun x hx => hl x (List.mem_cons_of_mem _ hx)) ?_ ?_
      · intro e he
        rw [hrec] at he
        rcases mem_jset_elim he with h2 | h2
        · exact hnp e h2
        · subst h2
          intro s hs
          rw [hsrc] at hs
          exact H2 a (hl a (List.mem_cons_self _ _)) pg (hfi.1 pg hf) s hs
      · intro q pg2 hq
        rw [hrend] at hq
        exact hfi.2 q pg2 hq

theorem writeFold_nextPages_elim (E : Ext) (srcFs : FS) (outDir : String)
    (prevPages : List (String × PageRecord)) (ip ic : List (String × String))
    (sp : Bool) (ck : List String) :
    ∀ (l : List String) (acc : WriteAcc) (e : String × PageRecord),
      e ∈ (l.foldl (writePageStep E srcFs outDir prevPages ip ic sp ck) acc).nextPages →
      e ∈ acc.nextPages ∨ e.1 ∈ l := by
  intro l
  induction l with
  | nil => intro acc e he; exact Or.inl he
  | cons a l ih =>
    intro acc e he
    rw [List.foldl_cons] at he
    rcases ih _ e he with h2 | h2
    · cases hf : (fetchPage E srcFs acc.rendered a).2 with
      | none =>
        rw [writePageStep_none E srcFs outDir prevPages ip ic sp ck acc a hf] at h2
        exact Or.inl h2
      | some pg =>
        obtain ⟨⟨rec, hrec, _⟩, _, _, _⟩ :=
          writePageStep_some_proj E srcFs outDir prevPages ip ic sp ck acc a pg hf
        rw [hrec] at h2
        rcases mem_jset_elim h2 with h3 | h3
        · exact Or.inl h3
        · subst h3
          exact Or.inr (List.mem_cons_self _ _)
    · exact Or.inr (List.mem_cons_of_mem _ h2)

theorem writeFold_wiring_inv (E : Ext) (srcFs : FS) (outDir : String)
    (prevPages : List (String × PageRecord)) (ip ic : List (String × String))
    (sp : Bool) (ck : List String) :
    ∀ (l : List String) (acc : WriteAcc),
      (∀ pw ∈ acc.wiring, ∀ su ∈ (pw : String × List (String × Option String)).2,
        (su : String × Option String).2 = jget ip su.1) →
      ∀ pw ∈ (l.foldl (writePageStep E srcFs outDir prevPages ip ic sp ck) acc).wiring,
        ∀ su ∈ (pw : String × List (String × Option String)).2,
          (su : String × Option String).2 = jget ip su.1 := by
  intro l
  induction l with
  | nil => intro acc h pw hw; exact h pw hw
  | cons a l ih =>
    intro acc h
    rw [List.foldl_cons]
    cases hf : (fetchPage E srcFs acc.rendered a).2 with
    | none =>
      rw [writePageStep_none E srcFs outDir prevPages ip ic sp ck acc a hf]
      exact ih _ h
    | some pg =>
      obtain ⟨_, hwir, _, _⟩ :=
        writePageStep_some_proj E srcFs outDir prevPages ip ic sp ck acc a pg hf
      refine ih _ ?_
      rw [hwir]
      intro pw hw su hsu
      rcases mem_jset_elim hw with h2 | h2
      · exact h pw h2 su hsu
      · subst h2
        obtain ⟨e2, _, hfe⟩ := List.mem_map.mp hsu
        rw [← hfe]

theorem writeFold_dels_mono (E : Ext) (srcFs : FS) (outDir : String)
    (prevPages : List (String × PageRecord)) (ip ic : List (String × String))
    (sp : Bool) (ck : List String) :
    ∀ (l : List String) (acc : WriteAcc) (x : String),
      x ∈ acc.bst.deletions →
      x ∈ (l.foldl (writePageStep E srcFs outDir prevPages ip ic sp ck) acc).bst.deletions := by
  intro l
  induction l with
  | nil => intro acc x h; exact h
  | cons a l ih =>
    intro acc x h
    rw [List.foldl_cons]
    cases hf : (fetchPage E srcFs acc.rendered a).2 with
    | none =>
      rw [writePageStep_none E srcFs outDir prevPages ip ic sp ck acc a hf]
      exact ih _ x h
    | some pg =>
      obtain ⟨_, _, _, hdel⟩ :=
        writePageStep_some_proj E srcFs outDir prevPages ip ic sp ck acc a pg hf
      exact ih _ x (hdel x h)

/-! ### C3: island reuse rule -/

/-- C3.  For every island source the island builder considers (i.e. whose
resolved source path exists — a source that cannot be located is skipped with
a warning, per the spec's skip-and-continue rule): (1) the `canReuse` test
holds iff (a) a previous record with a stored `depHashes` snapshot exists,
(b) re-hashing each path of that stored snapshot against the filesystem
(`rehashSnapshot`) yields an equal snapshot, and (c) the recorded JS output
exists on disk and, when a CSS output was recorded, that CSS output exists
on disk; (2) when it holds, the step re-registers the previous `jsPath` and
`cssPath` verbatim and keeps the previous record, performing no compilation,
no write and no deletion; (3) when it fails, the island is rebuilt (it is
compiled this run). -/
theorem claimC3_island_reuse_rule (E : Ext) (srcFs : FS)
    (prevIslands : List (String × IslandRecord)) (outDir : String)
    (io : IslandsOut) (entry : String × IslandEntry)
    (hex : fsExists srcFs (E.resolveIslandSrc entry.1) = true) :
    (islandCanReuse E srcFs io.bst.outFs outDir (jget prevIslands entry.1) = true ↔
      ∃ r snap, jget prevIslands entry.1 = some r ∧ r.depHashes = some snap ∧
        depHashesEqual snap (rehashSnapshot E srcFs snap) = true ∧
        outputExistsForUrl io.bst.outFs outDir r.jsPath = true ∧
        (optFalsy r.cssPath = true ∨
          outputExistsForUrl io.bst.outFs outDir r.cssPath = true)) ∧
    (∀ r, jget prevIslands entry.1 = some r →
      islandCanReuse E srcFs io.bst.outFs outDir (jget prevIslands entry.1) = true →
      islandStep E srcFs prevIslands outDir io entry =
        { io with
          paths := (match r.jsPath with
            | some j => jset io.paths entry.1 j
            | none => io.paths),
          css := (match r.cssPath with
            | some c => if c = "" then io.css else jset io.css entry.1 c
            | none => io.css),
          cache := jset io.cache entry.1 r }) ∧
    (islandCanReuse E srcFs io.bst.outFs outDir (jget prevIslands entry.1) = false →
      (islandStep E srcFs prevIslands outDir io entry).compiled =
        io.compiled ++ [entry.1]) := by
  refine ⟨?_, ?_, ?_⟩
  · cases hprev : jget prevIslands entry.1 with
    | none =>
      rw [islandCanReuse]
      simp only [Bool.false_eq_true, false_iff]
      rintro ⟨r, snap, hr, _⟩
      exact absurd hr (by simp)
    | some r =>
      cases hd : r.depHashes with
      | none =>
        rw [islandCanReuse]
        rw [hd]
        simp only [Bool.false_eq_true, false_iff]
        rintro ⟨r2, snap, hr2, hd2, _⟩
        injection hr2 with hr2
        subst hr2
        rw [hd] at hd2
        exact absurd hd2 (by simp)
      | some snap =>
        rw [islandCanReuse]
        rw [hd]
        rw [Bool.and_eq_true, Bool.and_eq_true, Bool.or_eq_true]
        constructor
        · rintro ⟨⟨hb, hjs⟩, hcss⟩
          exact ⟨r, snap, rfl, hd, hb, hjs, hcss⟩
        · rintro ⟨r2, snap2, hr2, hd2, hb, hjs, hcss⟩
          injection hr2 with hr2
          subst hr2
          rw [hd] at hd2
          injection hd2 with hd2
          subst hd2
          exact ⟨⟨hb, hjs⟩, hcss⟩
  · intro r hprev hcr
    rw [islandStep]
    rw [if_neg (not_not_intro hex)]
    rw [hprev] at hcr ⊢
    rw [if_pos hcr]
  · intro hcr
    rw [islandStep]
    rw [if_neg (not_not_intro hex)]
    rw [if_neg (by rw [hcr]; simp)]

/-- Witness for C3: island `X` with a matching stored snapshot and both
outputs on disk is reused: the step re-registers `/islands/X.js` and
`/islands/X.css` and keeps the record, compiling nothing. -/
theorem claimC3_witness :
    islandStep exExt exSrcFs exPrevIslandX "dist" exIslandsOut ("X", ⟨"X", "X"⟩) =
      { exIslandsOut with
        paths := jset exIslandsOut.paths "X" "/islands/X.js",
        css := (if ("/islands/X.css" : String) = "" then exIslandsOut.css
          else jset exIslandsOut.css "X" "/islands/X.css"),
        cache := jset exIslandsOut.cache "X"
          ⟨"X", some [("X", some "hXSRC")], some "/islands/X.js", some "/islands/X.css"⟩ } :=
  (claimC3_island_reuse_rule exExt exSrcFs exPrevIslandX "dist" exIslandsOut
      ("X", ⟨"X", "X"⟩) (by decide)).2.1
    ⟨"X", some [("X", some "hXSRC")], some "/islands/X.js", some "/islands/X.css"⟩
    (by decide) (by decide)

/-! ### Cleanup-phase lemmas -/

theorem jget_fsRemove_ne (fs : FS) (d p : String) (h : ¬p = d) :
    jget (fsRemove fs d) p = jget fs p := by
  induction fs with
  | nil => rfl
  | cons e rest ih =>
    obtain ⟨k, v⟩ := e
    simp only [fsRemove, List.filter_cons] at ih ⊢
    by_cases hk : k = d
    · rw [if_neg (by simp [hk])]
      rw [ih]
      have hkp : ¬k = p := fun h2 => h (h2.symm.trans hk)
      conv_rhs => rw [jget]
      rw [if_neg hkp]
    · rw [if_pos (by simp [hk])]
      simp only [jget]
      by_cases hkp : k = p
      · rw [if_pos hkp, if_pos hkp]
      · rw [if_neg hkp, if_neg hkp]
        exact ih

theorem fsExists_fsRemove_ne (fs : FS) (d p : String) (h : ¬p = d) :
    fsExists (fsRemove fs d) p = fsExists fs p := by
  rw [fsExists, fsExists, jget_fsRemove_ne fs d p h]

theorem removeOutputForUrl_presOr (fs : FS) (dels : List String) (outDir : String)
    (u : Option String) (p : String)
    (h : fsExists fs p = true ∨ p ∈ dels) :
    fsExists (removeOutputForUrl fs dels outDir u).1 p = true ∨
      p ∈ (removeOutputForUrl fs dels outDir u).2 := by
  cases u with
  | none => exact h
  | some url =>
    simp only [removeOutputForUrl]
    by_cases h1 : url = ""
    · rw [if_pos h1]; exact h
    · rw [if_neg h1]
      by_cases h2 : fsExists fs (urlDiskPath outDir url) = true
      · rw [if_pos h2]
        by_cases hp : p = urlDiskPath outDir url
        · exact Or.inr (List.mem_append_right _ (by rw [hp]; exact List.mem_singleton.mpr rfl))
        · rcases h with h3 | h3
          · exact Or.inl (by rw [fsExists_fsRemove_ne fs _ p hp]; exact h3)
          · exact Or.inr (List.mem_append_left _ h3)
      · rw [if_neg h2]; exact h

theorem removeOutputForUrl_deletes (fs : FS) (dels : List String) (outDir : String)
    (c : String) (hc : ¬c = "")
    (h : fsExists fs (urlDiskPath outDir c) = true ∨ urlDiskPath outDir c ∈ dels) :
    urlDiskPath outDir c ∈ (removeOutputForUrl fs dels outDir (some c)).2 := by
  simp only [removeOutputForUrl]
  rw [if_neg hc]
  by_cases h2 : fsExists fs (urlDiskPath outDir c) = true
  · rw [if_pos h2]
    exact List.mem_append_right _ (List.mem_singleton.mpr rfl)
  · rw [if_neg h2]
    rcases h with h3 | h3
    · exact absurd h3 h2
    · exact h3

theorem stalePageStep_dels_mono (outDir : String) (pageFiles : List String)
    (prevPages : List (String × PageRecord)) (st : BuildSt) (k : String) (x : String)
    (h : x ∈ st.deletions) :
    x ∈ (stalePageStep outDir pageFiles prevPages st k).deletions := by
  rw [stalePageStep]
  split
  · exact h
  · split
    · exact h
    · dsimp only
      split
      · split
        · exact List.mem_append_left _ (removeOutputForUrl_dels_mono _ _ _ _ x h)
        · exact removeOutputForUrl_dels_mono _ _ _ _ x h
      · exact removeOutputForUrl_dels_mono _ _ _ _ x h

theorem stalePageStep_presOr (outDir : String) (pageFiles : List String)
    (prevPages : List (String × PageRecord)) (st : BuildSt) (k : String) (p : String)
    (h : fsExists st.outFs p = true ∨ p ∈ st.deletions) :
    fsExists (stalePageStep outDir pageFiles prevPages st k).outFs p = true ∨
      p ∈ (stalePageStep outDir pageFiles prevPages st k).deletions := by
  rw [stalePageStep]
  split
  · exact h
  · split
    · exact h
    · rename_i pr heq
      have h1 := removeOutputForUrl_presOr st.outFs st.deletions outDir pr.cssPath p h
      dsimp only
      split
      · rename_i hh hheq
        split
        · dsimp only
          by_cases hp : p = hh
          · exact Or.inr (List.mem_append_right _ (by rw [hp]; exact List.mem_singleton.mpr rfl))
          · rcases h1 with h2 | h2
            · rw [fsExists_fsRemove_ne _ _ _ hp]
              exact Or.inl h2
            · exact Or.inr (List.mem_append_left _ h2)
        · exact h1
      · exact h1

theorem stalePageStep_deletes (outDir : String) (pageFiles : List String)
    (prevPages : List (String × PageRecord)) (st : BuildSt) (k : String)
    (pr : PageRecord) (hnot : ¬k ∈ pageFiles) (hpr : jget prevPages k = some pr) :
    (∀ c, pr.cssPath = some c → ¬c = "" →
      (fsExists st.outFs (urlDiskPath outDir c) = true ∨ urlDiskPath outDir c ∈ st.deletions) →
      urlDiskPath outDir c ∈ (stalePageStep outDir pageFiles prevPages st k).deletions) ∧
    (∀ h, pr.htmlPath = some h → ¬h = "" →
      (fsExists st.outFs h = true ∨ h ∈ st.deletions) →
      h ∈ (stalePageStep outDir pageFiles prevPages st k).deletions) := by
  constructor
  · intro c hcss hc hpres
    rw [stalePageStep, if_neg hnot, hpr]
    have hdel : urlDiskPath outDir c ∈
        (removeOutputForUrl st.outFs st.deletions outDir pr.cssPath).2 := by
      rw [hcss]
      exact removeOutputForUrl_deletes _ _ _ _ hc hpres
    dsimp only
    split
    · split
      · exact List.mem_append_left _ hdel
      · exact hdel
    · exact hdel
  · intro hh hhtml hne hpres
    rw [stalePageStep, if_neg hnot, hpr]
    have h1 := removeOutputForUrl_presOr st.outFs st.deletions outDir pr.cssPath hh hpres
    dsimp only
    rw [hhtml]
    dsimp only
    split
    · exact List.mem_append_right _ (List.mem_singleton.mpr rfl)
    · rename_i hcond
      rcases h1 with h2 | h2
      · exact absurd ⟨hne, h2⟩ hcond
      · exact h2

theorem cleanupStalePagesFold_dels_mono (outDir : String) (pageFiles : List String)
    (prevPages : List (String × PageRecord)) :
    ∀ (l : List String) (st : BuildSt) (x : String), x ∈ st.deletions →
      x ∈ (l.foldl (stalePageStep outDir pageFiles prevPages) st).deletions := by
  intro l
  induction l with
  | nil => intro st x h; exact h
  | cons a l ih =>
    intro st x h
    rw [List.foldl_cons]
    exact ih _ x (stalePageStep_dels_mono outDir pageFiles prevPages st a x h)

theorem cleanupStalePagesFold_presOr (outDir : String) (pageFiles : List String)
    (prevPages : List (String × PageRecord)) :
    ∀ (l : List String) (st : BuildSt) (p : String),
      (fsExists st.outFs p = true ∨ p ∈ st.deletions) →
      (fsExists (l.foldl (stalePageStep outDir pageFiles prevPages) st).outFs p = true ∨
        p ∈ (l.foldl (stalePageStep outDir pageFiles prevPages) st).deletions) := by
  intro l
  induction l with
  | nil => intro st p h; exact h
  | cons a l ih =>
    intro st p h
    rw [List.foldl_cons]
    exact ih _ p (stalePageStep_presOr outDir pageFiles prevPages st a p h)

theorem cleanupStalePagesFold_deletes (outDir : String) (pageFiles : List String)
    (prevPages : List (String × PageRecord)) (oldPage : String) (pr : PageRecord)
    (hnot : ¬oldPage ∈ pageFiles) (hpr : jget prevPages oldPage = some pr) :
    ∀ (l : List String) (st : BuildSt), oldPage ∈ l →
      (∀ c, pr.cssPath = some c → ¬c = "" →
        (fsExists st.outFs (urlDiskPath outDir c) = true ∨
          urlDiskPath outDir c ∈ st.deletions) →
        urlDiskPath outDir c ∈
          (l.foldl (stalePageStep outDir pageFiles prevPages) st).deletions) ∧
      (∀ h, pr.htmlPath = some h → ¬h = "" →
        (fsExists st.outFs h = true ∨ h ∈ st.deletions) →
        h ∈ (l.foldl (stalePageStep outDir pageFiles prevPages) st).deletions) := by
  intro l
  induction l with
  | nil => intro st h; exact absurd h (List.not_mem_nil oldPage)
  | cons a l ih =>
    intro st hmem
    by_cases ha : a = oldPage
    · subst ha
      constructor
      · intro c h1 h2 h3
        rw [List.foldl_cons]
        exact cleanupStalePagesFold_dels_mono outDir pageFiles prevPages l _ _
          ((stalePageStep_deletes outDir pageFiles prevPages st a pr hnot hpr).1 c h1 h2 h3)
      · intro h h1 h2 h3
        rw [List.foldl_cons]
        exact cleanupStalePagesFold_dels_mono outDir pageFiles prevPages l _ _
          ((stalePageStep_deletes outDir pageFiles prevPages st a pr hnot hpr).2 h h1 h2 h3)
    · have hmem2 : oldPage ∈ l := by
        rcases List.mem_cons.mp hmem with h2 | h2
        · exact absurd h2.symm ha
        · exact h2
      constructor
      · intro c h1 h2 h3
        rw [List.foldl_cons]
        exact (ih _ hmem2).1 c h1 h2
          (stalePageStep_presOr outDir pageFiles prevPages st a _ h3)
      · intro h h1 h2 h3
        rw [List.foldl_cons]
        exact (ih _ hmem2).2 h h1 h2
          (stalePageStep_presOr outDir pageFiles prevPages st a _ h3)

theorem staleIslandStep_dels_mono (outDir : String)
    (allIslands : List (String × IslandEntry)) (prevIslands : List (String × IslandRecord))
    (st : BuildSt) (k : String) (x : String) (h : x ∈ st.deletions) :
    x ∈ (staleIslandStep outDir allIslands prevIslands st k).deletions := by
  rw [staleIslandStep]
  split
  · exact h
  · split
    · exact h
    · dsimp only
      exact removeOutputForUrl_dels_mono _ _ _ _ x
        (removeOutputForUrl_dels_mono _ _ _ _ x h)

theorem staleIslandStep_presOr (outDir : String)
    (allIslands : List (String × IslandEntry)) (prevIslands : List (String × IslandRecord))
    (st : BuildSt) (k : String) (p : String)
    (h : fsExists st.outFs p = true ∨ p ∈ st.deletions) :
    fsExists (staleIslandStep outDir allIslands prevIslands st k).outFs p = true ∨
      p ∈ (staleIslandStep outDir allIslands prevIslands st k).deletions := by
  rw [staleIslandStep]
  split
  · exact h
  · split
    · exact h
    · dsimp only
      exact removeOutputForUrl_presOr _ _ _ _ p (removeOutputForUrl_presOr _ _ _ _ p h)

theorem staleIslandStep_deletes (outDir : String)
    (allIslands : List (String × IslandEntry)) (prevIslands : List (String × IslandRecord))
    (st : BuildSt) (k : String) (r : IslandRecord)
    (hnot : ¬k ∈ keysOf allIslands) (hpr : jget prevIslands k = some r) :
    (∀ j, r.jsPath = some j → ¬j = "" →
      (fsExists st.outFs (urlDiskPath outDir j) = true ∨ urlDiskPath outDir j ∈ st.deletions) →
      urlDiskPath outDir j ∈ (staleIslandStep outDir allIslands prevIslands st k).deletions) ∧
    (∀ c, r.cssPath = some c → ¬c = "" →
      (fsExists st.outFs (urlDiskPath outDir c) = true ∨ urlDiskPath outDir c ∈ st.deletions) →
      urlDiskPath outDir c ∈ (staleIslandStep outDir allIslands prevIslands st k).deletions) := by
  constructor
  · intro j h1 h2 h3
    rw [staleIslandStep, if_neg hnot, hpr]
    dsimp only
    refine removeOutputForUrl_dels_mono _ _ _ _ _ ?_
    rw [h1]
    exact removeOutputForUrl_deletes _ _ _ _ h2 h3
  · intro c h1 h2 h3
    rw [staleIslandStep, if_neg hnot, hpr]
    dsimp only
    rw [h1]
    refine removeOutputForUrl_deletes _ _ _ _ h2 ?_
    exact removeOutputForUrl_presOr _ _ _ _ _ h3

theorem cleanupStaleIslandsFold_dels_mono (outDir : String)
    (allIslands : List (String × IslandEntry)) (prevIslands : List (String × IslandRecord)) :
    ∀ (l : List String) (st : BuildSt) (x : String), x ∈ st.deletions →
      x ∈ (l.foldl (staleIslandStep outDir allIslands prevIslands) st).deletions := by
  intro l
  induction l with
  | nil => intro st x h; exact h
  | cons a l ih =>
    intro st x h
    rw [List.foldl_cons]
    exact ih _ x (staleIslandStep_dels_mono outDir allIslands prevIslands st a x h)

theorem cleanupStaleIslandsFold_deletes (outDir : String)
    (allIslands : List (String × IslandEntry)) (prevIslands : List (String × IslandRecord))
    (oldSrc : String) (r : IslandRecord)
    (hnot : ¬oldSrc ∈ keysOf allIslands) (hpr : jget prevIslands oldSrc = some r) :
    ∀ (l : List String) (st : BuildSt), oldSrc ∈ l →
      (∀ j, r.jsPath = some j → ¬j = "" →
        (fsExists st.outFs (urlDiskPath outDir j) = true ∨
          urlDiskPath outDir j ∈ st.deletions) →
        urlDiskPath outDir j ∈
          (l.foldl (staleIslandStep outDir allIslands prevIslands) st).deletions) ∧
      (∀ c, r.cssPath = some c → ¬c = "" →
        (fsExists st.outFs (urlDiskPath outDir c) = true ∨
          urlDiskPath outDir c ∈ st.deletions) →
        urlDiskPath outDir c ∈
          (l.foldl (staleIslandStep outDir allIslands prevIslands) st).deletions) := by
  intro l
  induction l with
  | nil => intro st h; exact absurd h (List.not_mem_nil oldSrc)
  | cons a l ih =>
    intro st hmem
    by_cases ha : a = oldSrc
    · subst ha
      constructor
      · intro j h1 h2 h3
        rw [List.foldl_cons]
        exact cleanupStaleIslandsFold_dels_mono outDir allIslands prevIslands l _ _
          ((staleIslandStep_deletes outDir allIslands prevIslands st a r hnot hpr).1
            j h1 h2 h3)
      · intro c h1 h2 h3
        rw [List.foldl_cons]
        exact cleanupStaleIslandsFold_dels_mono outDir allIslands prevIslands l _ _
          ((staleIslandStep_deletes outDir allIslands prevIslands st a r hnot hpr).2
            c h1 h2 h3)
    · have hmem2 : oldSrc ∈ l := by
        rcases List.mem_cons.mp hmem with h2 | h2
        · exact absurd h2.symm ha
        · exact h2
      constructor
      · intro j h1 h2 h3
        rw [List.foldl_cons]
        exact (ih _ hmem2).1 j h1 h2
          (staleIslandStep_presOr outDir allIslands prevIslands st a _ h3)
      · intro c h1 h2 h3
        rw [List.foldl_cons]
        exact (ih _ hmem2).2 c h1 h2
          (staleIslandStep_presOr outDir allIslands prevIslands st a _ h3)

/-! ### C1: cache save invariant (corrected) -/

/-- C1 counterexample.  The claim as stated is false on the code: a build of
the single page `p`, whose render references island source `X` while `X`
does not exist on disk, saves a cache whose page record lists `X` in
`islandSources` although the saved `islands` mapping has no key `X` — the
island builder skips a missing source with a warning (`buildIslands`'s
missing-island `continue`) and never records it, while the page record keeps
the island reference. -/
theorem claimC1_counterexample :
    buildRun exExt exSrcFsNoX [] "dist" ["p"] [] [] none [] = some exRunNoX ∧
    ∃ e ∈ exRunNoX.saved.pages,
      ∃ s ∈ (e : String × PageRecord).2.islandSources,
        ¬s ∈ keysOf exRunNoX.saved.islands :=
  ⟨rfl, by decide⟩

/-- C1, amended.  The cache save invariant holds provided (i) every island
source in the build's island set resolves to a file that exists on disk, and
(ii) every page's fresh render has its island set inside the build's island
set — (ii) is automatic for pages classified as changed and is, for promoted
unchanged pages, exactly the spec's §4.4 determinism requirement that
re-rendering a dep-unchanged page reproduces the island set recorded in its
cached record.  Under (i) and (ii), whenever the orchestrator saves the
cache, every entry of every saved `PageRecord`'s `islandSources` is a key of
the saved `islands` mapping. -/
theorem claimC1_cache_save_invariant_amended (E : Ext) (srcFs outFs0 : FS)
    (outDir : String) (pageFiles : List String)
    (prevPages : List (String × PageRecord)) (prevIslands : List (String × IslandRecord))
    (purgeFlag : Option Bool) (classKeep : List String) (res : BuildResult)
    (hrun : buildRun E srcFs outFs0 outDir pageFiles prevPages prevIslands purgeFlag
      classKeep = some res)
    (hex : ∀ s ∈ keysOf (classifyPages E srcFs prevPages pageFiles).allIslands,
      fsExists srcFs (E.resolveIslandSrc s) = true)
    (hdet : ∀ p ∈ pageFiles, ∀ pg, renderPage E srcFs p = some pg →
      ∀ s ∈ keysOf pg.islands,
        s ∈ keysOf (classifyPages E srcFs prevPages pageFiles).allIslands) :
    ∀ e ∈ res.saved.pages, ∀ s ∈ (e : String × PageRecord).2.islandSources,
      s ∈ keysOf res.saved.islands := by
  by_cases hpf : pageFiles = []
  · rw [buildRun, if_pos hpf] at hrun
    exact absurd hrun (by simp)
  · rw [buildRun, if_neg hpf] at hrun
    injection hrun with hrun
    subst hrun
    intro e he s hs
    obtain ⟨hu, hr, hk, hnd⟩ := classifyPages_inv E srcFs prevPages pageFiles
    have hpages : (buildCore E srcFs outFs0 outDir pageFiles prevPages prevIslands
        purgeFlag classKeep).saved.pages =
      (writeStage E srcFs outFs0 outDir pageFiles prevPages prevIslands purgeFlag
        classKeep).nextPages := rfl
    rw [hpages, writeStage] at he
    have hK : s ∈ keysOf (classifyPages E srcFs prevPages pageFiles).allIslands := by
      refine writeFold_nextPages_inv E srcFs outDir prevPages _ _ _ _
        (keysOf (classifyPages E srcFs prevPages pageFiles).allIslands) pageFiles hdet
        _ _ ?_ ?_ ?_ e he s hs
      · intro x hx
        rw [promoStage] at hx
        rcases promoteFold_fst_elim _ _ _ _ _ _ _ x hx with h2 | h2
        · exact hk x h2
        · exact classifyPages_unchanged_sub E srcFs prevPages pageFiles x h2
      · intro e2 he2 s2 hs2
        have he2b : e2 ∈ (promoStage E srcFs outFs0 outDir pageFiles prevPages
            prevIslands).2 := he2
        rw [promoStage] at he2b
        rcases promoteFold_snd_elim _ _ _ _ _ _ _ e2 he2b with h2 | ⟨h2, h3⟩
        · exact absurd h2 (List.not_mem_nil e2)
        · obtain ⟨pr, hpr, hsub, _⟩ := hu e2.1 h2
          rw [hpr] at h3
          injection h3 with h3
          rw [h3] at hsub
          exact hsub s2 hs2
      · exact fun q pg hq => hr q pg hq
    have hislands : (buildCore E srcFs outFs0 outDir pageFiles prevPages prevIslands
        purgeFlag classKeep).saved.islands =
      (islandsStage E srcFs outFs0 outDir pageFiles prevPages prevIslands).cache := rfl
    rw [hislands, islandsStage, buildIslands]
    obtain ⟨entry, hmem, hfst⟩ := List.mem_map.mp hK
    rw [← hfst]
    exact buildIslandsFold_cache_covers E srcFs prevIslands outDir _ _ entry hmem
      (by rw [hfst]; exact hex s hK)

/-- Witness for the amended C1: two pages sharing the existing island source
`X`; the first saved page record lists `X` and the saved islands mapping
indeed has the key `X`. -/
theorem claimC1_witness :
    "X" ∈ keysOf exRunShared.saved.islands := by
  refine claimC1_cache_save_invariant_amended exExt exSrcFs [] "dist" ["p", "q"] [] []
    none [] exRunShared rfl (by decide) ?_
    (exRunShared.saved.pages.headD ("", ⟨none, [], none, none⟩)) (by decide) "X" (by decide)
  intro p hp pg hpg s hs
  have hk : s ∈ keysOf ((renderPage exExt exSrcFs p).getD pg).islands := by
    rw [hpg]
    exact hs
  have hp2 : p = "p" ∨ p = "q" := by simpa using hp
  rcases hp2 with h | h
  · subst h
    have h3 : s ∈ ["X"] := hk
    rw [List.mem_singleton] at h3
    subst h3
    decide
  · subst h
    have h3 : s ∈ ["X"] := hk
    rw [List.mem_singleton] at h3
    subst h3
    decide

/-! ### C6: island identity is the source string -/

theorem registryAfter_lookup :
    ∀ (calls : List String) (init : List (String × IslandEntry)) (src : String),
      (src ∈ calls ∨ jget init src = some ⟨src, src⟩) →
      jget (calls.foldl islandRegister init) src = some ⟨src, src⟩ := by
  intro calls
  induction calls with
  | nil =>
    intro init src h
    rcases h with h | h
    · exact absurd h (List.not_mem_nil src)
    · exact h
  | cons c calls ih =>
    intro init src h
    rw [List.foldl_cons]
    by_cases hsc : src ∈ calls
    · exact ih _ src (Or.inl hsc)
    · refine ih _ src (Or.inr ?_)
      rcases h with h | h
      · rcases List.mem_cons.mp h with h2 | h2
        · subst h2
          rw [islandRegister, jget_jset_self]
        · exact absurd h2 hsc
      · by_cases hc : c = src
        · subst hc
          rw [islandRegister, jget_jset_self]
        · rw [islandRegister, jget_jset_other _ _ _ _ hc]
          exact h

theorem registryAfter_nodup :
    ∀ (calls : List String) (init : List (String × IslandEntry)),
      (keysOf init).Nodup → (keysOf (calls.foldl islandRegister init)).Nodup := by
  intro calls
  induction calls with
  | nil => intro init h; exact h
  | cons c calls ih =>
    intro init h
    rw [List.foldl_cons]
    exact ih _ (nodup_keysOf_jset h _ _)

/-- C6.  Island identity is the source string: multiple `<Island src=...>`
renders collapse to one registry entry per distinct source (the registry is
keyed by `src`, with no duplicates and with `src`'s entry being the last
write); in any build that saves a cache, the saved `islands` mapping has at
most one record per source string, at most one bundle is compiled per source
in the run, every written page's `<script>` wiring for a source carries the
single shared `islandPaths` URL — so two pages referencing the same source
reference the same compiled URL — and every island of the build whose
source exists on disk does get a compiled URL. -/
theorem claimC6_island_identity (E : Ext) (srcFs outFs0 : FS) (outDir : String)
    (pageFiles : List String) (prevPages : List (String × PageRecord))
    (prevIslands : List (String × IslandRecord)) (purgeFlag : Option Bool)
    (classKeep : List String) (res : BuildResult)
    (hrun : buildRun E srcFs outFs0 outDir pageFiles prevPages prevIslands purgeFlag
      classKeep = some res) :
    (∀ calls : List String, (keysOf (registryAfter calls)).Nodup ∧
      ∀ src ∈ calls, jget (registryAfter calls) src = some ⟨src, src⟩) ∧
    (keysOf res.saved.islands).Nodup ∧
    (∀ s, res.compiled.count s ≤ 1) ∧
    (∀ p1 p2 w1 w2 s u1 u2, jget res.wiring p1 = some w1 →
      jget res.wiring p2 = some w2 → (s, u1) ∈ w1 → (s, u2) ∈ w2 →
      u1 = jget res.islandPaths s ∧ u2 = jget res.islandPaths s ∧ u1 = u2) ∧
    (∀ s, s ∈ keysOf (classifyPages E srcFs prevPages pageFiles).allIslands →
      fsExists srcFs (E.resolveIslandSrc s) = true →
      (jget res.islandPaths s).isSome = true) := by
  by_cases hpf : pageFiles = []
  · rw [buildRun, if_pos hpf] at hrun
    exact absurd hrun (by simp)
  · rw [buildRun, if_neg hpf] at hrun
    injection hrun with hrun
    subst hrun
    obtain ⟨hu, hr, hk, hnd⟩ := classifyPages_inv E srcFs prevPages pageFiles
    refine ⟨?_, ?_, ?_, ?_, ?_⟩
    · intro calls
      exact ⟨registryAfter_nodup calls [] List.nodup_nil,
        fun src hs => registryAfter_lookup calls [] src (Or.inl hs)⟩
    · have h1 : (buildCore E srcFs outFs0 outDir pageFiles prevPages prevIslands
          purgeFlag classKeep).saved.islands =
        (islandsStage E srcFs outFs0 outDir pageFiles prevPages prevIslands).cache := rfl
      rw [h1, islandsStage, buildIslands]
      exact buildIslandsFold_cache_nodup E srcFs prevIslands outDir _ _ List.nodup_nil
    · intro s
      have h1 : (buildCore E srcFs outFs0 outDir pageFiles prevPages prevIslands
          purgeFlag classKeep).compiled =
        (islandsStage E srcFs outFs0 outDir pageFiles prevPages prevIslands).compiled := rfl
      rw [h1, islandsStage, buildIslands]
      exact buildIslandsFold_compiled_count E srcFs prevIslands outDir _ _ s hnd
    · intro p1 p2 w1 w2 s u1 u2 h1 h2 hw1 hw2
      have hwiring : (buildCore E srcFs outFs0 outDir pageFiles prevPages prevIslands
          purgeFlag classKeep).wiring =
        (writeStage E srcFs outFs0 outDir pageFiles prevPages prevIslands purgeFlag
          classKeep).wiring := rfl
      rw [hwiring, writeStage] at h1 h2
      have hinv := writeFold_wiring_inv E srcFs outDir prevPages
        (islandsStage E srcFs outFs0 outDir pageFiles prevPages prevIslands).paths
        (islandsStage E srcFs outFs0 outDir pageFiles prevPages prevIslands).css
        (purgeFlag.getD E.isProd) classKeep
        (promoStage E srcFs outFs0 outDir pageFiles prevPages prevIslands).1
        ⟨(islandsStage E srcFs outFs0 outDir pageFiles prevPages prevIslands).bst,
          (classifyPages E srcFs prevPages pageFiles).renderedPages,
          (promoStage E srcFs outFs0 outDir pageFiles prevPages prevIslands).2, []⟩
        (by intro pw hpw su hsu; exact absurd hpw (List.not_mem_nil pw))
      have hu1 : u1 = jget (islandsStage E srcFs outFs0 outDir pageFiles prevPages
          prevIslands).paths s := hinv _ (mem_of_jget_eq_some h1) _ hw1
      have hu2 : u2 = jget (islandsStage E srcFs outFs0 outDir pageFiles prevPages
          prevIslands).paths s := hinv _ (mem_of_jget_eq_some h2) _ hw2
      exact ⟨hu1, hu2, by rw [hu1, hu2]⟩
    · intro s hsK hsEx
      have h1 : (buildCore E srcFs outFs0 outDir pageFiles prevPages prevIslands
          purgeFlag classKeep).islandPaths =
        (islandsStage E srcFs outFs0 outDir pageFiles prevPages prevIslands).paths := rfl
      rw [h1, islandsStage, buildIslands]
      obtain ⟨entry, hmem, hfst⟩ := List.mem_map.mp hsK
      rw [jget_isSome_iff_mem_keys, ← hfst]
      exact buildIslandsFold_paths_covers E srcFs prevIslands outDir _ _ entry hmem
        (by rw [hfst]; exact hsEx)

/-- Witness for C6: the two-page build sharing island `X` — one saved
record, one compiled bundle, and both pages wired to the same URL. -/
theorem claimC6_witness :
    (keysOf exRunShared.saved.islands).Nodup ∧
    exRunShared.compiled.count "X" ≤ 1 ∧
    (some "/islands/X.js" = jget exRunShared.islandPaths "X" ∧
      some "/islands/X.js" = jget exRunShared.islandPaths "X" ∧
      (some "/islands/X.js" : Option String) = some "/islands/X.js") ∧
    (jget exRunShared.islandPaths "X").isSome = true := by
  obtain ⟨hreg, hnodup, hcount, hwire, hpath⟩ :=
    claimC6_island_identity exExt exSrcFs [] "dist" ["p", "q"] [] [] none []
      exRunShared rfl
  exact ⟨hnodup, hcount "X",
    hwire "p" "q" [("X", some "/islands/X.js")] [("X", some "/islands/X.js")] "X"
      (some "/islands/X.js") (some "/islands/X.js") (by decide) (by decide) (by decide)
      (by decide),
    hpath "X" (by decide) (by decide)⟩

/-! ### C7: garbage collection of removed units -/

/-- C7: whenever a build runs (pages were discovered), for every page source
that was recorded in the previous cache but is no longer discovered on disk,
its previously recorded CSS and HTML outputs that still exist under the
output root are scheduled for deletion and its record is dropped from the
saved cache; and for every island source no longer referenced by any
discovered page, its previously recorded JS and CSS outputs that still exist
on disk are deleted and its record is dropped from the saved cache. -/
theorem claimC7_garbage_collection (E : Ext) (srcFs outFs0 : FS) (outDir : String)
    (pageFiles : List String) (prevPages : List (String × PageRecord))
    (prevIslands : List (String × IslandRecord)) (purgeFlag : Option Bool)
    (classKeep : List String) (res : BuildResult)
    (hrun : buildRun E srcFs outFs0 outDir pageFiles prevPages prevIslands purgeFlag
      classKeep = some res)
    (oldPage : String) (pr : PageRecord)
    (hop : jget prevPages oldPage = some pr) (hnotp : ¬oldPage ∈ pageFiles)
    (oldSrc : String) (r : IslandRecord)
    (hos : jget prevIslands oldSrc = some r)
    (hnots : ¬oldSrc ∈ keysOf (classifyPages E srcFs prevPages pageFiles).allIslands) :
    (∀ c, pr.cssPath = some c → ¬c = "" →
      fsExists outFs0 (urlDiskPath outDir c) = true →
      urlDiskPath outDir c ∈ res.deletions) ∧
    (∀ h, pr.htmlPath = some h → ¬h = "" →
      fsExists outFs0 h = true → h ∈ res.deletions) ∧
    ¬oldPage ∈ keysOf res.saved.pages ∧
    (∀ j, r.jsPath = some j → ¬j = "" →
      fsExists outFs0 (urlDiskPath outDir j) = true →
      urlDiskPath outDir j ∈ res.deletions) ∧
    (∀ c, r.cssPath = some c → ¬c = "" →
      fsExists outFs0 (urlDiskPath outDir c) = true →
      urlDiskPath outDir c ∈ res.deletions) ∧
    ¬oldSrc ∈ keysOf res.saved.islands := by
  by_cases hpf : pageFiles = []
  · rw [buildRun, if_pos hpf] at hrun
    exact absurd hrun (by simp)
  · rw [buildRun, if_neg hpf] at hrun
    injection hrun with hrun
    subst hrun
    have hopk : oldPage ∈ keysOf prevPages :=
      List.mem_map.mpr ⟨(oldPage, pr), mem_of_jget_eq_some hop, rfl⟩
    have hosk : oldSrc ∈ keysOf prevIslands :=
      List.mem_map.mpr ⟨(oldSrc, r), mem_of_jget_eq_some hos, rfl⟩
    have hchain2 : ∀ x : String,
        x ∈ (cleanupStaleIslands outDir
            (classifyPages E srcFs prevPages pageFiles).allIslands prevIslands
            (cleanupStalePages outDir pageFiles prevPages ⟨outFs0, [], []⟩)).deletions →
        x ∈ (buildCore E srcFs outFs0 outDir pageFiles prevPages prevIslands purgeFlag
          classKeep).deletions := by
      intro x hx
      have h3 : x ∈ (islandsStage E srcFs outFs0 outDir pageFiles prevPages
          prevIslands).bst.deletions := by
        rw [islandsStage, buildIslands]
        exact buildIslandsFold_dels_mono E srcFs prevIslands outDir _ _ x hx
      have h4 : x ∈ (writeStage E srcFs outFs0 outDir pageFiles prevPages prevIslands
          purgeFlag classKeep).bst.deletions := by
        rw [writeStage]
        exact writeFold_dels_mono E srcFs outDir prevPages _ _ _ classKeep _ _ x h3
      exact h4
    have hchain1 : ∀ x : String,
        x ∈ (cleanupStalePages outDir pageFiles prevPages ⟨outFs0, [], []⟩).deletions →
        x ∈ (buildCore E srcFs outFs0 outDir pageFiles prevPages prevIslands purgeFlag
          classKeep).deletions := by
      intro x hx
      refine hchain2 x ?_
      rw [cleanupStaleIslands]
      exact cleanupStaleIslandsFold_dels_mono outDir _ prevIslands _ _ x hx
    have hpres : ∀ t : String, fsExists outFs0 t = true →
        fsExists (cleanupStalePages outDir pageFiles prevPages
          ⟨outFs0, [], []⟩).outFs t = true ∨
        t ∈ (cleanupStalePages outDir pageFiles prevPages ⟨outFs0, [], []⟩).deletions := by
      intro t ht
      rw [cleanupStalePages]
      exact cleanupStalePagesFold_presOr outDir pageFiles prevPages (keysOf prevPages)
        ⟨outFs0, [], []⟩ t (Or.inl ht)
    have hpfold := cleanupStalePagesFold_deletes outDir pageFiles prevPages oldPage pr
      hnotp hop (keysOf prevPages) ⟨outFs0, [], []⟩ hopk
    have hifold := cleanupStaleIslandsFold_deletes outDir
      (classifyPages E srcFs prevPages pageFiles).allIslands prevIslands oldSrc r
      hnots hos (keysOf prevIslands)
      (cleanupStalePages outDir pageFiles prevPages ⟨outFs0, [], []⟩) hosk
    have hnp : ¬oldPage ∈ keysOf (buildCore E srcFs outFs0 outDir pageFiles prevPages
        prevIslands purgeFlag classKeep).saved.pages := by
      intro hmem
      obtain ⟨e, he, hfst⟩ := List.mem_map.mp hmem
      have he2 : e ∈ (writeStage E srcFs outFs0 outDir pageFiles prevPages prevIslands
          purgeFlag classKeep).nextPages := he
      rw [writeStage] at he2
      obtain ⟨hu, _, hk, _⟩ := classifyPages_inv E srcFs prevPages pageFiles
      rcases writeFold_nextPages_elim E srcFs outDir prevPages _ _ _ classKeep _ _ e he2 with
        h2 | h2
      · have h2b : e ∈ (promoStage E srcFs outFs0 outDir pageFiles prevPages
            prevIslands).2 := h2
        rw [promoStage] at h2b
        rcases promoteFold_snd_elim _ _ _ _ _ _ _ e h2b with h3 | ⟨h3, _⟩
        · exact absurd h3 (List.not_mem_nil e)
        · obtain ⟨pr2, _, _, hpf2⟩ := hu e.1 h3
          exact hnotp (by rw [← hfst]; exact hpf2)
      · have h2b : e.1 ∈ (promoStage E srcFs outFs0 outDir pageFiles prevPages
            prevIslands).1 := h2
        rw [promoStage] at h2b
        rcases promoteFold_fst_elim _ _ _ _ _ _ _ e.1 h2b with h3 | h3
        · exact hnotp (by rw [← hfst]; exact hk e.1 h3)
        · exact hnotp (by
            rw [← hfst]
            exact classifyPages_unchanged_sub E srcFs prevPages pageFiles e.1 h3)
    have hni : ¬oldSrc ∈ keysOf (buildCore E srcFs outFs0 outDir pageFiles prevPages
        prevIslands purgeFlag classKeep).saved.islands := by
      intro hmem
      have hm2 : oldSrc ∈ keysOf (islandsStage E srcFs outFs0 outDir pageFiles prevPages
          prevIslands).cache := hmem
      rw [islandsStage, buildIslands] at hm2
      rcases buildIslandsFold_cache_sub E srcFs prevIslands outDir _ _ oldSrc hm2 with
        h2 | h2
      · simp [keysOf] at h2
      · exact hnots h2
    refine ⟨?_, ?_, hnp, ?_, ?_, hni⟩
    · intro c h1 h2 h3
      refine hchain1 _ ?_
      rw [cleanupStalePages]
      exact hpfold.1 c h1 h2 (Or.inl h3)
    · intro hh h1 h2 h3
      refine hchain1 _ ?_
      rw [cleanupStalePages]
      exact hpfold.2 hh h1 h2 (Or.inl h3)
    · intro j h1 h2 h3
      refine hchain2 _ ?_
      rw [cleanupStaleIslands]
      exact hifold.1 j h1 h2 (hpres _ h3)
    · intro c h1 h2 h3
      refine hchain2 _ ?_
      rw [cleanupStaleIslands]
      exact hifold.2 c h1 h2 (hpres _ h3)

/-- Witness for C7: the previous cache has page `old` (outputs
`dist/old/index.html`, `/old.css`) and island `Y` (outputs `/islands/Y.js`,
`/islands/Y.css`), all present on disk; a build discovering only `p`, `q`
deletes all four outputs and drops both records. -/
theorem claimC7_witness :
    "dist/old.css" ∈ exRunGC.deletions ∧
    "dist/old/index.html" ∈ exRunGC.deletions ∧
    ¬"old" ∈ keysOf exRunGC.saved.pages ∧
    "dist/islands/Y.js" ∈ exRunGC.deletions ∧
    "dist/islands/Y.css" ∈ exRunGC.deletions ∧
    ¬"Y" ∈ keysOf exRunGC.saved.islands := by
  obtain ⟨h1, h2, h3, h4, h5, h6⟩ :=
    claimC7_garbage_collection exExt exSrcFs exOutFs0 "dist" ["p", "q"] exPrevPages
      exPrevIslands none [] exRunGC rfl "old"
      ⟨some [("old", some "hOLD")], ["Y"], some "dist/old/index.html", some "/old.css"⟩
      rfl (by decide) "Y"
      ⟨"Y", some [("Y", some "hY")], some "/islands/Y.js", some "/islands/Y.css"⟩
      rfl (by decide)
  exact ⟨h1 "/old.css" rfl (by decide) (by decide),
    h2 "dist/old/index.html" rfl (by decide) (by decide), h3,
    h4 "/islands/Y.js" rfl (by decide) (by decide),
    h5 "/islands/Y.css" rfl (by decide) (by decide), h6⟩

end Fleax
